import Mathlib

/-!
# Verification of the RoughOcTree attribute/prune engine and binary codec

Shallow embedding of `src/RoughOcTree.cpp` and
`include/rough_octomap/RoughOcTree.h` (the `octomap::RoughOcTreeNode` /
`octomap::RoughOcTree` classes).

Modelling conventions:

* C++ `float`/`double` scalars are modelled as exact rationals `ℚ`
  (no rounding); the roughness NaN sentinel (`rough(NAN)` in the node
  constructor, tested by `isRoughSet`) is modelled as `Option ℚ`
  with `none` standing for NaN.  The one place where IEEE special
  values are essential — the `log`/probability pipeline of
  `getMeanChildStairLogOdds` — is modelled separately over `ℝ`
  extended with `-∞`, `+∞` and NaN constructors.
* A `RoughOcTreeNode*` pointer (possibly `NULL`) is the inductive
  `ONode`, with `ONode.null` standing for the null pointer.  The code
  does not distinguish `children == NULL` from an allocated children
  array whose eight slots are all `NULL` anywhere in its observable
  behaviour (`nodeHasChildren`, `nodeChildExists` treat both alike),
  so a node always carries eight child slots here and "leaf" means
  all slots are `ONode.null`.
* The generic octomap base-class helpers used by the source
  (`search`, `expandNode`, `createNodeChild`, `computeChildIdx`,
  `isNodeOccupied`, `getMaxChildLogOdds`, the `changed_keys` map) are
  external collaborators; they are embedded following their
  documented octomap semantics, which is also what the spec's
  out-of-scope interface description assumes.  Keys are modelled as
  the list of 3-bit child indices along the descent path from the
  root (`computeChildIdx(key, tree_depth - 1 - depth)` is the list
  entry at position `depth`).
* Byte streams are modelled as `List Bool` in stream-bit order: the
  codec's flat bit buffers are flushed eight bits at a time with bit
  `j` of byte `k` holding buffer bit `8*k + j`, so the byte stream is
  exactly the buffer bit sequence; both reader and writer use the
  same `buffer[child * bitsPerChild + offset]` layout, which makes
  the per-child groups contiguous runs of the stream.
-/

/-- C++ float-to-int conversion: truncation toward zero. -/
def truncQ (q : ℚ) : ℤ := if 0 ≤ q then ⌊q⌋ else ⌈q⌉

/-- Largest finite `float` (`std::numeric_limits<float>::max()`), exactly. -/
def fltMaxQ : ℚ := (2 ^ 24 - 1) * 2 ^ 104

/-- Largest finite `double` (`std::numeric_limits<double>::max()`), exactly. -/
def dblMaxQ : ℚ := (2 ^ 53 - 1) * 2 ^ 971

namespace RoughOctomap

/-- A `RoughOcTreeNode*`: either the null pointer or a node with an
occupancy log-odds `value` (inherited from `OcTreeNode`), a roughness
(`none` = the NaN "unset" sentinel), the stairs log-odds, the agent
tag, and eight child pointers. -/
inductive ONode : Type where
  | null : ONode
  | node (value : ℚ) (rough : Option ℚ) (stair : ℚ) (agent : ℤ)
      (c0 c1 c2 c3 c4 c5 c6 c7 : ONode) : ONode
deriving DecidableEq, Repr

namespace ONode

/-- Occupancy log-odds (`getValue`/`getLogOdds`); junk `0` on null. -/
def value : ONode → ℚ
  | .null => 0
  | .node v _ _ _ _ _ _ _ _ _ _ _ => v

/-- Roughness (`getRough`), `none` for the NaN sentinel; junk on null. -/
def rough : ONode → Option ℚ
  | .null => none
  | .node _ r _ _ _ _ _ _ _ _ _ _ => r

/-- Stairs log-odds (`getStairLogOdds`); junk `0` on null. -/
def stair : ONode → ℚ
  | .null => 0
  | .node _ _ s _ _ _ _ _ _ _ _ _ => s

/-- Agent tag (`getAgent`); junk `0` on null. -/
def agent : ONode → ℤ
  | .null => 0
  | .node _ _ _ a _ _ _ _ _ _ _ _ => a

/-- The eight child pointers in order. -/
def childrenList : ONode → List ONode
  | .null => []
  | .node _ _ _ _ k0 k1 k2 k3 k4 k5 k6 k7 => [k0, k1, k2, k3, k4, k5, k6, k7]

/-- Child slot `i` (`getNodeChild`); `null` when absent. -/
def child (n : ONode) (i : Fin 8) : ONode :=
  (n.childrenList).getD i.val .null

/-- `nodeChildExists(node, i)`: children array allocated and slot non-null. -/
def childExists (n : ONode) (i : Fin 8) : Bool :=
  n.child i != .null

/-- `nodeHasChildren(node)`: some child slot is non-null. -/
def hasChildren (n : ONode) : Bool :=
  n.childrenList.any (· != .null)

/-- `setLogOdds` (occupancy). -/
def setValue (n : ONode) (v : ℚ) : ONode :=
  match n with
  | .null => .null
  | .node _ r s a k0 k1 k2 k3 k4 k5 k6 k7 => .node v r s a k0 k1 k2 k3 k4 k5 k6 k7

/-- `setRough`. -/
def setRough (n : ONode) (r : Option ℚ) : ONode :=
  match n with
  | .null => .null
  | .node v _ s a k0 k1 k2 k3 k4 k5 k6 k7 => .node v r s a k0 k1 k2 k3 k4 k5 k6 k7

/-- `setStairLogOdds`.  Modelled from the spec: the stairs log-odds
field and its accessors are referenced by the source but their
declarations are not among the provided headers; the spec describes
`stairLogOdds` as a plain float channel of the node. -/
def setStair (n : ONode) (s : ℚ) : ONode :=
  match n with
  | .null => .null
  | .node v r _ a k0 k1 k2 k3 k4 k5 k6 k7 => .node v r s a k0 k1 k2 k3 k4 k5 k6 k7

/-- Replace child slot `i`. -/
def setChild (n : ONode) (i : Fin 8) (c : ONode) : ONode :=
  match n with
  | .null => .null
  | .node v r s a k0 k1 k2 k3 k4 k5 k6 k7 =>
    match i with
    | 0 => .node v r s a c k1 k2 k3 k4 k5 k6 k7
    | 1 => .node v r s a k0 c k2 k3 k4 k5 k6 k7
    | 2 => .node v r s a k0 k1 c k3 k4 k5 k6 k7
    | 3 => .node v r s a k0 k1 k2 c k4 k5 k6 k7
    | 4 => .node v r s a k0 k1 k2 k3 c k5 k6 k7
    | 5 => .node v r s a k0 k1 k2 k3 k4 c k6 k7
    | 6 => .node v r s a k0 k1 k2 k3 k4 k5 c k7
    | 7 => .node v r s a k0 k1 k2 k3 k4 k5 k6 c

/-- A freshly constructed `RoughOcTreeNode()`: `rough(NAN)`, `agent(0)`,
no children.  Modelled from the spec: the occupancy and stairs
log-odds of a default node are taken as `0` (probability one half),
the spec's "8 default children" convention — the C++ constructor
leaves them uninitialised. -/
def default : ONode := .node 0 none 0 0 .null .null .null .null .null .null .null .null

/-- `isRoughSet`: roughness is not the NaN sentinel. -/
def isRoughSet (n : ONode) : Bool := n.rough.isSome

/-- Number of nodes in the subtree (for codec fuel bounds). -/
def size : ONode → Nat
  | .null => 0
  | .node _ _ _ _ k0 k1 k2 k3 k4 k5 k6 k7 =>
    1 + k0.size + k1.size + k2.size + k3.size + k4.size + k5.size + k6.size + k7.size

end ONode

/-- `RoughBinaryEncodingMode`. -/
inductive RBEMode : Type where
  | thresholding : RBEMode
  | binning : RBEMode
deriving DecidableEq, Repr

/-- Immutable-per-session tree configuration.  `treeDepth`,
`clampMin`/`clampMax` (`clamping_thres_min/max`), the occupancy
threshold `occThres` (`occ_prob_thres_log`) and change-detection flag
come from the octomap base class; `stairThres` is the stairs
registration threshold (modelled from the spec: the binary "is-stairs"
classification compares the stairs log-odds against a registration
threshold, value above versus at-or-below); `roughBinaryThres` and
`numBinaryBins` are the codec fields of `RoughOcTree`. -/
structure TreeCfg where
  treeDepth : Nat
  clampMin : ℚ
  clampMax : ℚ
  occThres : ℚ
  stairThres : ℚ
  roughBinaryThres : ℚ
  numBinaryBins : Nat
  useChangeDetection : Bool
  mode : RBEMode
deriving DecidableEq, Repr

/-- A spatial key, as the spec's out-of-scope key interface provides
it: the 3-bit child index at each depth along the descent path, so
`computeChildIdx(key, tree_depth - 1 - depth) = key.get depth`. -/
abbrev OcKey := List (Fin 8)

/-- The `changed_keys` map (`KeyBoolMap`), as an association list. -/
abbrev KeyBoolMap := List (OcKey × Bool)

/-- `changed_keys.find(key)`. -/
def kbFind (m : KeyBoolMap) (k : OcKey) : Option Bool :=
  (m.find? (fun p => p.1 = k)).map (·.2)

/-- `changed_keys.insert({key, b})`: a no-op when the key is present
(`std::unordered_map::insert` does not overwrite). -/
def kbInsert (m : KeyBoolMap) (k : OcKey) (b : Bool) : KeyBoolMap :=
  if (kbFind m k).isSome then m else (k, b) :: m

/-- `changed_keys.erase(it)` at the iterator found for `key`. -/
def kbErase (m : KeyBoolMap) (k : OcKey) : KeyBoolMap :=
  m.filter (fun p => p.1 ≠ k)

/-- The mutable tree state: the owned root pointer and the
changed-keys bookkeeping map. -/
structure TreeState where
  root : ONode
  ck : KeyBoolMap
deriving DecidableEq, Repr

namespace ONode

/-- `setAgent`. -/
def setAgentTag (n : ONode) (a : ℤ) : ONode :=
  match n with
  | .null => .null
  | .node v r s _ k0 k1 k2 k3 k4 k5 k6 k7 => .node v r s a k0 k1 k2 k3 k4 k5 k6 k7

/-- `RoughOcTreeNode::copyData`: copies occupancy value, roughness and
agent tag from `from` — the stairs log-odds is not copied. -/
def copyData (n source : ONode) : ONode :=
  ((n.setValue source.value).setRough source.rough).setAgentTag source.agent

/-- `RoughOcTreeNode::getAverageChildRough`, exactly as written: the
accumulator `m` is an `int`, so every `m += child->getRough()` and the
final `m /= c` truncate toward zero; the result is NaN (`none`) when
no child has a set roughness. -/
def getAverageChildRough (n : ONode) : Option ℚ :=
  let acc := n.childrenList.foldl
    (fun (p : ℤ × ℕ) c =>
      match c with
      | .null => p
      | c => if c.isRoughSet then (truncQ ((p.1 : ℚ) + c.rough.getD 0), p.2 + 1) else p)
    (0, 0)
  if acc.2 > 0 then some ((Int.tdiv acc.1 acc.2 : ℤ) : ℚ) else none

/-- `RoughOcTreeNode::updateRoughChildren`. -/
def updateRoughChildren (n : ONode) : ONode :=
  n.setRough n.getAverageChildRough

/-- `OcTreeNode::getMaxChildLogOdds` (octomap base): maximum occupancy
log-odds over existing children, starting from `-DBL_MAX`. -/
def getMaxChildLogOdds (n : ONode) : ℚ :=
  n.childrenList.foldl
    (fun m c => match c with | .null => m | c => if c.value > m then c.value else m)
    (-dblMaxQ)

/-- `OcTreeNode::updateOccupancyChildren` (octomap base):
`setLogOdds(getMaxChildLogOdds())`. -/
def updateOccupancyChildren (n : ONode) : ONode :=
  n.setValue n.getMaxChildLogOdds

/-- `RoughOcTreeNode::getMaxChildStairLogOdds`: maximum raw stairs
log-odds over existing children, starting from `-FLT_MAX`. -/
def getMaxChildStairLogOdds (n : ONode) : ℚ :=
  n.childrenList.foldl
    (fun m c => match c with | .null => m | c => if c.stair > m then c.stair else m)
    (-fltMaxQ)

/-- `RoughOcTreeNode::updateStairChildren`.  Modelled from the spec:
its definition is not among the provided sources; the spec states that
an inner node's stair value is set to the max over its children's
stair log-odds, mirroring the occupancy aggregation rule. -/
def updateStairChildren (n : ONode) : ONode :=
  n.setStair n.getMaxChildStairLogOdds

end ONode

namespace RoughOcTree

open ONode

/-- `AbstractOccupancyOcTree::isNodeOccupied` (octomap base):
log-odds at or above the occupancy threshold. -/
def isNodeOccupied (cfg : TreeCfg) (n : ONode) : Bool :=
  n.value ≥ cfg.occThres

/-- `RoughOcTree::isNodeStairs`.  Modelled from the spec: not among
the provided sources; the spec's binary classification is "value above
vs. at/below the registration threshold". -/
def isNodeStairs (cfg : TreeCfg) (n : ONode) : Bool :=
  n.stair > cfg.stairThres

/-- `OcTreeBaseImpl::search` along the remaining descent path: follow
existing children; on a missing child, a childless current node is a
pruned leaf covering the key and is returned, otherwise the search
fails (`NULL`). -/
def searchPath (n : ONode) : List (Fin 8) → ONode
  | [] => n
  | i :: rest =>
    if n.child i ≠ .null then searchPath (n.child i) rest
    else if ¬ n.hasChildren then n
    else .null

/-- `search(key)` from the root (`NULL` on an empty tree). -/
def search (t : TreeState) (k : OcKey) : ONode :=
  match t.root with
  | .null => .null
  | r => searchPath r k

/-- `RoughOcTree::isNodeCollapsible`: child 0 exists and is childless,
and every other child exists, is childless, and has the same occupancy
value as child 0. -/
def isNodeCollapsible (n : ONode) : Bool :=
  if ¬ n.childExists 0 then false
  else
    let firstChild := n.child 0
    if firstChild.hasChildren then false
    else
      ([1, 2, 3, 4, 5, 6, 7] : List (Fin 8)).all (fun i =>
        n.childExists i ∧ ¬ (n.child i).hasChildren ∧ (n.child i).value = firstChild.value)

/-- The mutation performed by a successful `RoughOcTree::pruneNode`:
copy child 0's data (value, rough, agent) into the node, recompute the
roughness from the children when the copied roughness is set, then
delete all eight children.  (`pruneNode` itself returns `false` and
does nothing when the node is not collapsible.) -/
def pruneNodeApply (n : ONode) : ONode :=
  let n1 := n.copyData (n.child 0)
  let n2 := if n1.isRoughSet then n1.setRough n1.getAverageChildRough else n1
  match n2 with
  | .null => .null
  | .node v r s a _ _ _ _ _ _ _ _ =>
    .node v r s a .null .null .null .null .null .null .null .null

/-- `RoughOcTree::pruneNode`: the (success flag, resulting node) pair. -/
def pruneNode (n : ONode) : Bool × ONode :=
  if isNodeCollapsible n then (true, pruneNodeApply n) else (false, n)

/-- `OcTreeBaseImpl::expandNode` (octomap base): create all eight
children, each receiving `copyData(*node)` — value, rough and agent
from the parent; the stairs channel is not part of `copyData`. -/
def expandNode (n : ONode) : ONode :=
  let c := ONode.default.copyData n
  match n with
  | .null => .null
  | .node v r s a _ _ _ _ _ _ _ _ => .node v r s a c c c c c c c c

/-- `createNodeChild(node, i)` (octomap base): put a freshly
constructed default node into slot `i`. -/
def createNodeChild (n : ONode) (i : Fin 8) : ONode :=
  n.setChild i ONode.default

/-- `RoughOcTree::updateNodeStairLogOdds`: add the update to the
stairs log-odds, then clamp below at `clampMin` (with early return)
and above at `clampMax`. -/
def updateNodeStairLogOdds (cfg : TreeCfg) (n : ONode) (update : ℚ) : ONode :=
  let n1 := n.setStair (n.stair + update)
  if n1.stair < cfg.clampMin then n1.setStair cfg.clampMin
  else if n1.stair > cfg.clampMax then n1.setStair cfg.clampMax
  else n1

/-- Result of the recursive stairs update on a subtree: the rebuilt
subtree, the returned node (the C++ return pointer's contents), and
the updated changed-keys map. -/
structure UpdResult where
  node : ONode
  ret : ONode
  ck : KeyBoolMap
deriving DecidableEq, Repr

/-- `RoughOcTree::updateNodeStairsRecurs`.  `path` is the remaining
descent (`computeChildIdx` values from the current depth down to
`tree_depth - 1`); the empty path is the `depth == tree_depth` leaf
case.  On a missing child: a childless node is expanded (a pruned
node being reconstructed — `created_node` stays false), otherwise the
single requested child is created with `created_node = true`.  On
unwinding, a successful prune makes the current node the return
value; otherwise the node's stair aggregate is refreshed. -/
def updateNodeStairsRecurs (cfg : TreeCfg) (n : ONode) (justCreated : Bool) (key : OcKey)
    (path : List (Fin 8)) (update : ℚ) (ck : KeyBoolMap) : UpdResult :=
  match path with
  | i :: rest =>
    let pr : ONode × Bool :=
      if ¬ n.childExists i then
        if ¬ n.hasChildren then (expandNode n, false)
        else (createNodeChild n i, true)
      else (n, false)
    let r := updateNodeStairsRecurs cfg (pr.1.child i) pr.2 key rest update ck
    let n2 := pr.1.setChild i r.node
    if isNodeCollapsible n2 then
      let p := pruneNodeApply n2
      ⟨p, p, r.ck⟩
    else
      ⟨n2.updateStairChildren, r.ret, r.ck⟩
  | [] =>
    if cfg.useChangeDetection then
      let occBefore := isNodeStairs cfg n
      let n1 := updateNodeStairLogOdds cfg n update
      if justCreated then ⟨n1, n1, kbInsert ck key true⟩
      else if occBefore ≠ isNodeStairs cfg n1 then
        match kbFind ck key with
        | none => ⟨n1, n1, kbInsert ck key false⟩
        | some false => ⟨n1, n1, kbErase ck key⟩
        | some true => ⟨n1, n1, ck⟩
      else ⟨n1, n1, ck⟩
    else
      let n1 := updateNodeStairLogOdds cfg n update
      ⟨n1, n1, ck⟩

/-- `RoughOcTree::updateNodeStairs(key, log_odds_update)`: early abort
when a node found at `key` is already clamped at the rail the update
pushes toward; otherwise lazily create the root and run the recursive
update.  Returns the new tree state and the returned node. -/
def updateNodeStairs (cfg : TreeCfg) (t : TreeState) (key : OcKey) (update : ℚ) :
    TreeState × ONode :=
  let leaf := search t key
  if leaf ≠ .null ∧
      ((update ≥ 0 ∧ leaf.stair ≥ cfg.clampMax) ∨
       (update ≤ 0 ∧ leaf.stair ≤ cfg.clampMin)) then
    (t, leaf)
  else
    let pr : ONode × Bool :=
      match t.root with
      | .null => (ONode.default, true)
      | r => (r, false)
    let r := updateNodeStairsRecurs cfg pr.1 pr.2 key key update t.ck
    (⟨r.node, r.ck⟩, r.ret)

/-- In-place mutation of the node `search` finds: rebuild the tree
along the search path with the found node's stair replaced. -/
def setStairAtPath (n : ONode) (path : List (Fin 8)) (v : ℚ) : ONode :=
  match path with
  | [] => n.setStair v
  | i :: rest =>
    if n.child i ≠ .null then n.setChild i (setStairAtPath (n.child i) rest v)
    else if ¬ n.hasChildren then n.setStair v
    else n

/-- `RoughOcTree::setNodeStairLogOdds`: `search`, then
`setStairLogOdds(value)` on the found node — no clamping. -/
def setNodeStairLogOdds (t : TreeState) (key : OcKey) (v : ℚ) : TreeState × ONode :=
  let n := search t key
  if n ≠ .null then
    (⟨setStairAtPath t.root key v, t.ck⟩, n.setStair v)
  else (t, .null)

end RoughOcTree

/-! ## The binary codec

The byte stream is modelled as a `List Bool` in stream-bit order (see
the header comment); reading a byte is reading its eight buffer bits,
and both codecs' flat `buffer[child * bitsPerChild + offset]` layout
makes each child's group a contiguous run, so the writer emits the
eight per-child groups in order and the reader consumes them in
order.  The `binary_encoding_mode` is fixed per tree, so the mutual
dispatch `writeBinaryNode`/`writeBinaryNodeViaThresholding` (and the
read side) is embedded as direct recursion plus a top-level dispatch. -/

/-- Read one bit; fails on a truncated stream (the `s.read` failure). -/
def takeBit : List Bool → Option (Bool × List Bool)
  | [] => none
  | b :: r => some (b, r)

/-- Read `n` bits; fails on a truncated stream. -/
def takeBits (n : Nat) (s : List Bool) : Option (List Bool × List Bool) :=
  if n ≤ s.length then some (s.take n, s.drop n) else none

/-- Read one 3-bit child group of the THRESHOLDING header. -/
def takeTriple (s : List Bool) : Option ((Bool × Bool × Bool) × List Bool) :=
  match s with
  | b0 :: b1 :: b2 :: r => some ((b0, b1, b2), r)
  | _ => none

/-- `child->getRough() > rough_binary_thres`: false when the roughness
is the NaN sentinel. -/
def roughOver (c : ONode) (thres : ℚ) : Bool :=
  match c.rough with
  | none => false
  | some r => r > thres

namespace RoughOcTree

/-- The 3 header bits the THRESHOLDING writer produces for one child
slot: `(bit0, bit1)` is `(1,1)` for has-children, `(0,1)` for an
occupied leaf, `(1,0)` for a free leaf, `(0,0)` for an absent child;
`bit2` is the binarized roughness of an occupied leaf. -/
def threshChildTriple (cfg : TreeCfg) (c : ONode) : Bool × Bool × Bool :=
  match c with
  | .null => (false, false, false)
  | c =>
    if c.hasChildren then (true, true, false)
    else if isNodeOccupied cfg c then (false, true, roughOver c cfg.roughBinaryThres)
    else (true, false, false)

/-- The same three bits as a stream fragment. -/
def threshChildBits (cfg : TreeCfg) (c : ONode) : List Bool :=
  let t := threshChildTriple cfg c
  [t.1, t.2.1, t.2.2]

/-- `RoughOcTree::writeBinaryNodeViaThresholding`: the 24-bit header
(eight 3-bit groups) followed depth-first by the encodings of the
children that have children of their own. -/
def writeBinThresh (cfg : TreeCfg) : ONode → List Bool
  | .null => []
  | .node _ _ _ _ k0 k1 k2 k3 k4 k5 k6 k7 =>
    threshChildBits cfg k0 ++ threshChildBits cfg k1 ++ threshChildBits cfg k2 ++
    threshChildBits cfg k3 ++ threshChildBits cfg k4 ++ threshChildBits cfg k5 ++
    threshChildBits cfg k6 ++ threshChildBits cfg k7 ++
    ((if k0.hasChildren then writeBinThresh cfg k0 else []) ++
     (if k1.hasChildren then writeBinThresh cfg k1 else []) ++
     (if k2.hasChildren then writeBinThresh cfg k2 else []) ++
     (if k3.hasChildren then writeBinThresh cfg k3 else []) ++
     (if k4.hasChildren then writeBinThresh cfg k4 else []) ++
     (if k5.hasChildren then writeBinThresh cfg k5 else []) ++
     (if k6.hasChildren then writeBinThresh cfg k6 else []) ++
     (if k7.hasChildren then writeBinThresh cfg k7 else []))

/-- The child node the THRESHOLDING reader creates from one 3-bit
group: a free leaf at `clampMin`; an occupied leaf at `clampMax` whose
roughness is the binary threshold or zero; the `-200` "has children"
sentinel; or no child. -/
def threshMakeChild (cfg : TreeCfg) (b : Bool × Bool × Bool) : ONode :=
  if b.1 ∧ ¬ b.2.1 then ONode.default.setValue cfg.clampMin
  else if ¬ b.1 ∧ b.2.1 then
    (ONode.default.setValue cfg.clampMax).setRough
      (some (if b.2.2 then cfg.roughBinaryThres else 0))
  else if b.1 ∧ b.2.1 then ONode.default.setValue (-200)
  else .null

/-- Read `n` consecutive 3-bit child groups. -/
def takeTriples : Nat → List Bool → Option (List (Bool × Bool × Bool) × List Bool)
  | 0, s => some ([], s)
  | n + 1, s =>
    match takeTriple s with
    | none => none
    | some (t, s1) =>
      match takeTriples n s1 with
      | none => none
      | some (ts, s2) => some (t :: ts, s2)

/-- The second reader loop ("read children's children"): run `step` on
each created child in order, threading the stream. -/
def stepKids (step : ONode → List Bool → Option (ONode × List Bool)) :
    List ONode → List Bool → Option (List ONode × List Bool)
  | [], s => some ([], s)
  | c :: cs, s =>
    match step c s with
    | none => none
    | some (d, s1) =>
      match stepKids step cs s1 with
      | none => none
      | some (ds, s2) => some (d :: ds, s2)

/-- One iteration of the THRESHOLDING reader's second loop: an
existing child whose log-odds is within `1e-3` of the `-200` sentinel
is recursively read (via `rd1`) and then gets its max-child log-odds;
other children pass through. -/
def threshStep (rd1 : ONode → List Bool → Option (ONode × List Bool))
    (c : ONode) (s : List Bool) : Option (ONode × List Bool) :=
  if c ≠ .null ∧ |c.value + 200| < 1 / 1000 then
    match rd1 c s with
    | none => none
    | some (c2, s2) => some (c2.setValue c2.getMaxChildLogOdds, s2)
  else some (c, s)

/-- Attach a freshly decoded children list to the node being read
into, whose log-odds has been defaulted to occupied (`clampMax`); the
base is the fresh root or a fresh sentinel child, so its slots are
free as `createNodeChild` requires (the catch-all arm is
unreachable on the reader's calls). -/
def attachKids (cfg : TreeCfg) (base : ONode) (ds : List ONode) (s : List Bool) :
    Option (ONode × List Bool) :=
  match base.setValue cfg.clampMax, ds with
  | .node v r st a _ _ _ _ _ _ _ _, [d0, d1, d2, d3, d4, d5, d6, d7] =>
    some (.node v r st a d0 d1 d2 d3 d4 d5 d6 d7, s)
  | _, _ => none

/-- `RoughOcTree::readBinaryNodeViaThresholding`, reading into `base`
(the fresh root or the fresh sentinel child): read the 24-bit header,
default the node to occupied (`clampMax`), create the classified
children, then recursively read into each sentinel child and replace
its log-odds with its max-child log-odds.  `fuel` only bounds the
recursion depth (it is at least the stream length plus one at top
level, which a 24-bit-per-node consumption can never exhaust). -/
def readBinThresh (cfg : TreeCfg) : Nat → ONode → List Bool → Option (ONode × List Bool)
  | 0, _, _ => none
  | fuel + 1, base, s =>
    match takeTriples 8 s with
    | none => none
    | some (ts, s1) =>
      match stepKids (threshStep (readBinThresh cfg fuel)) (ts.map (threshMakeChild cfg)) s1 with
      | none => none
      | some (ds, s2) => attachKids cfg base ds s2

/-- LSB-first bits of a natural number, as `boost::dynamic_bitset`
lays them out (`bits[j]` is bit `j` of the value). -/
def natBitsLSB : Nat → Nat → List Bool
  | 0, _ => []
  | nb + 1, u => decide (u % 2 = 1) :: natBitsLSB nb (u / 2)

/-- LSB-first value of a bit list (`boost::dynamic_bitset::to_ulong`). -/
def bitsValLSB (l : List Bool) : Nat :=
  l.foldr (fun b acc => (if b then 1 else 0) + 2 * acc) 0

/-- Fuel-driven floor of the base-2 logarithm (`fuel ≥ n` makes it
exact); written this way so that it evaluates by structural
recursion. -/
def floorLog2Aux : Nat → Nat → Nat
  | 0, _ => 0
  | fuel + 1, n => if n ≥ 2 then floorLog2Aux fuel (n / 2) + 1 else 0

/-- `floor(log2 n)` for `n ≥ 1` (0 at 0, where the C `log2(0.)` into
`uint` is undefined anyway). -/
def floorLog2 (n : Nat) : Nat := floorLog2Aux n n

/-- `log2(num_binary_bins)` truncated to an unsigned integer. -/
def numRoughBits (cfg : TreeCfg) : Nat := floorLog2 cfg.numBinaryBins

/-- `binsize = (max - min) / (num_binary_bins - 1)` with
`min = 0, max = 1`. -/
def binsizeQ (cfg : TreeCfg) : ℚ := (1 - 0) / ((cfg.numBinaryBins : ℚ) - 1)

/-- `binidx = floor(rough / binsize)` (the `double` floor is integral,
and the `int` conversion is then exact). -/
def binRoughIdx (cfg : TreeCfg) (r : ℚ) : ℤ := ⌊r / binsizeQ cfg⌋

/-- The BINNING writer's bit group for one child: two occupancy-class
bits, `log2(B)` roughness-bin bits (LSB first, zero when the
roughness is unset), one stairs bit (the `int` bin index passes
through the `unsigned long` conversion of the bitset constructor). -/
def binChildPack (cfg : TreeCfg) (c : ONode) : Bool × Bool × List Bool × Bool :=
  let nb := numRoughBits cfg
  match c with
  | .null => (false, false, List.replicate nb false, false)
  | c =>
    if c.hasChildren then (true, true, List.replicate nb false, false)
    else if isNodeOccupied cfg c then
      (false, true,
       (match c.rough with
        | none => List.replicate nb false
        | some r => natBitsLSB nb ((binRoughIdx cfg r % (2 : ℤ) ^ 64).toNat)),
       isNodeStairs cfg c)
    else (true, false, List.replicate nb false, false)

/-- The same group as a stream fragment of `2 + log2(B) + 1` bits. -/
def binChildBits (cfg : TreeCfg) (c : ONode) : List Bool :=
  let p := binChildPack cfg c
  p.1 :: p.2.1 :: (p.2.2.1 ++ [p.2.2.2])

/-- `RoughOcTree::writeBinaryNodeViaBinning`: the
`(2 + log2(B) + 1) * 8`-bit header followed depth-first by the
encodings of the children that have children of their own. -/
def writeBinBinning (cfg : TreeCfg) : ONode → List Bool
  | .null => []
  | .node _ _ _ _ k0 k1 k2 k3 k4 k5 k6 k7 =>
    binChildBits cfg k0 ++ binChildBits cfg k1 ++ binChildBits cfg k2 ++
    binChildBits cfg k3 ++ binChildBits cfg k4 ++ binChildBits cfg k5 ++
    binChildBits cfg k6 ++ binChildBits cfg k7 ++
    ((if k0.hasChildren then writeBinBinning cfg k0 else []) ++
     (if k1.hasChildren then writeBinBinning cfg k1 else []) ++
     (if k2.hasChildren then writeBinBinning cfg k2 else []) ++
     (if k3.hasChildren then writeBinBinning cfg k3 else []) ++
     (if k4.hasChildren then writeBinBinning cfg k4 else []) ++
     (if k5.hasChildren then writeBinBinning cfg k5 else []) ++
     (if k6.hasChildren then writeBinBinning cfg k6 else []) ++
     (if k7.hasChildren then writeBinBinning cfg k7 else []))

/-- Read one `2 + nb + 1`-bit child group of the BINNING header. -/
def takePack (nb : Nat) (s : List Bool) : Option ((Bool × Bool × List Bool × Bool) × List Bool) := do
  let (o1, s1) ← takeBit s
  let (o2, s2) ← takeBit s1
  let (rb, s3) ← takeBits nb s2
  let (st, s4) ← takeBit s3
  pure ((o1, o2, rb, st), s4)

/-- The child node the BINNING reader creates from one bit group: an
occupied leaf decodes `rough = binidx * binsize` and a raw `0.0`/`1.0`
stairs log-odds from the stairs bit. -/
def binMakeChild (cfg : TreeCfg) (p : Bool × Bool × List Bool × Bool) : ONode :=
  if p.1 ∧ ¬ p.2.1 then ONode.default.setValue cfg.clampMin
  else if ¬ p.1 ∧ p.2.1 then
    (((ONode.default.setValue cfg.clampMax).setRough
        (some ((bitsValLSB p.2.2.1 : ℚ) * binsizeQ cfg))).setStair
      (if p.2.2.2 then 1 else 0))
  else if p.1 ∧ p.2.1 then ONode.default.setValue (-200)
  else .null

/-- Read `n` consecutive `2 + nb + 1`-bit child groups. -/
def takePacks (nb : Nat) : Nat → List Bool → Option (List (Bool × Bool × List Bool × Bool) × List Bool)
  | 0, s => some ([], s)
  | n + 1, s =>
    match takePack nb s with
    | none => none
    | some (t, s1) =>
      match takePacks nb n s1 with
      | none => none
      | some (ts, s2) => some (t :: ts, s2)

/-- One iteration of the BINNING reader's second loop: a sentinel
child is recursively read and then gets both its max-child log-odds
and its max-child stairs log-odds. -/
def binStep (rd1 : ONode → List Bool → Option (ONode × List Bool))
    (c : ONode) (s : List Bool) : Option (ONode × List Bool) :=
  if c ≠ .null ∧ |c.value + 200| < 1 / 1000 then
    match rd1 c s with
    | none => none
    | some (c2, s2) =>
      some ((c2.setValue c2.getMaxChildLogOdds).setStair c2.getMaxChildStairLogOdds, s2)
  else some (c, s)

/-- `RoughOcTree::readBinaryNodeViaBinning`, reading into `base`:
like the THRESHOLDING reader, but with `2 + log2(B) + 1`-bit child
groups and the extra stairs aggregation on completed subtrees. -/
def readBinBinning (cfg : TreeCfg) : Nat → ONode → List Bool → Option (ONode × List Bool)
  | 0, _, _ => none
  | fuel + 1, base, s =>
    match takePacks (numRoughBits cfg) 8 s with
    | none => none
    | some (ts, s1) =>
      match stepKids (binStep (readBinBinning cfg fuel)) (ts.map (binMakeChild cfg)) s1 with
      | none => none
      | some (ds, s2) => attachKids cfg base ds s2

/-- `RoughOcTree::writeBinaryNode`: dispatch on the encoding mode. -/
def writeBinaryNode (cfg : TreeCfg) (n : ONode) : List Bool :=
  match cfg.mode with
  | .thresholding => writeBinThresh cfg n
  | .binning => writeBinBinning cfg n

/-- `RoughOcTree::readBinaryNode`: dispatch on the encoding mode. -/
def readBinaryNode (cfg : TreeCfg) (fuel : Nat) (base : ONode) (s : List Bool) :
    Option (ONode × List Bool) :=
  match cfg.mode with
  | .thresholding => readBinThresh cfg fuel base s
  | .binning => readBinBinning cfg fuel base s

/-- `RoughOcTree::writeBinaryData`: encode the whole tree (nothing
for an empty tree). -/
def writeBinaryData (cfg : TreeCfg) (t : TreeState) : List Bool :=
  match t.root with
  | .null => []
  | r => writeBinaryNode cfg r

/-- `RoughOcTree::readBinaryData`: decoding into an already-populated
tree is rejected; otherwise a fresh default root is created and read
into.  Returns the new tree state and the unconsumed stream. -/
def readBinaryData (cfg : TreeCfg) (t : TreeState) (s : List Bool) :
    Option (TreeState × List Bool) :=
  match t.root with
  | .node _ _ _ _ _ _ _ _ _ _ _ _ => none
  | .null =>
    (readBinaryNode cfg (s.length + 1) ONode.default s).map
      (fun p => (⟨p.1, t.ck⟩, p.2))

/-! ### Decode normal forms

Derived shapes used to state the round-trip theorems: the tree that
reading back the encoding of `n` provably produces. -/

/-- The post-subtree fixup of the THRESHOLDING reader:
`child->setLogOdds(child->getMaxChildLogOdds())`. -/
def threshFix (m : ONode) : ONode := m.setValue m.getMaxChildLogOdds

/-- The post-subtree fixup of the BINNING reader: max-child log-odds
and max-child stairs log-odds. -/
def binFix (m : ONode) : ONode :=
  (m.setValue m.getMaxChildLogOdds).setStair m.getMaxChildStairLogOdds

/-- The tree produced by reading back the THRESHOLDING encoding of
`n`: the node itself decodes occupied at `clampMax` with default
attributes; leaf and absent children decode through their header
bits; children with children decode recursively and then carry their
max-child log-odds. -/
def threshDecode (cfg : TreeCfg) : ONode → ONode
  | .null => .null
  | .node _ _ _ _ k0 k1 k2 k3 k4 k5 k6 k7 =>
    .node cfg.clampMax none 0 0
      (if k0.hasChildren then threshFix (threshDecode cfg k0)
       else threshMakeChild cfg (threshChildTriple cfg k0))
      (if k1.hasChildren then threshFix (threshDecode cfg k1)
       else threshMakeChild cfg (threshChildTriple cfg k1))
      (if k2.hasChildren then threshFix (threshDecode cfg k2)
       else threshMakeChild cfg (threshChildTriple cfg k2))
      (if k3.hasChildren then threshFix (threshDecode cfg k3)
       else threshMakeChild cfg (threshChildTriple cfg k3))
      (if k4.hasChildren then threshFix (threshDecode cfg k4)
       else threshMakeChild cfg (threshChildTriple cfg k4))
      (if k5.hasChildren then threshFix (threshDecode cfg k5)
       else threshMakeChild cfg (threshChildTriple cfg k5))
      (if k6.hasChildren then threshFix (threshDecode cfg k6)
       else threshMakeChild cfg (threshChildTriple cfg k6))
      (if k7.hasChildren then threshFix (threshDecode cfg k7)
       else threshMakeChild cfg (threshChildTriple cfg k7))

/-- Per-child decode of the THRESHOLDING round trip. -/
def threshDecodeKid (cfg : TreeCfg) (c : ONode) : ONode :=
  if c.hasChildren then threshFix (threshDecode cfg c)
  else threshMakeChild cfg (threshChildTriple cfg c)

/-- The tree produced by reading back the BINNING encoding of `n`. -/
def binDecode (cfg : TreeCfg) : ONode → ONode
  | .null => .null
  | .node _ _ _ _ k0 k1 k2 k3 k4 k5 k6 k7 =>
    .node cfg.clampMax none 0 0
      (if k0.hasChildren then binFix (binDecode cfg k0)
       else binMakeChild cfg (binChildPack cfg k0))
      (if k1.hasChildren then binFix (binDecode cfg k1)
       else binMakeChild cfg (binChildPack cfg k1))
      (if k2.hasChildren then binFix (binDecode cfg k2)
       else binMakeChild cfg (binChildPack cfg k2))
      (if k3.hasChildren then binFix (binDecode cfg k3)
       else binMakeChild cfg (binChildPack cfg k3))
      (if k4.hasChildren then binFix (binDecode cfg k4)
       else binMakeChild cfg (binChildPack cfg k4))
      (if k5.hasChildren then binFix (binDecode cfg k5)
       else binMakeChild cfg (binChildPack cfg k5))
      (if k6.hasChildren then binFix (binDecode cfg k6)
       else binMakeChild cfg (binChildPack cfg k6))
      (if k7.hasChildren then binFix (binDecode cfg k7)
       else binMakeChild cfg (binChildPack cfg k7))

/-- Per-child decode of the BINNING round trip. -/
def binDecodeKid (cfg : TreeCfg) (c : ONode) : ONode :=
  if c.hasChildren then binFix (binDecode cfg c)
  else binMakeChild cfg (binChildPack cfg c)

end RoughOcTree

/-! ### Structural predicates used to state the claims -/

/-- The spec's 0-or-8-children node invariant, recursively: every
node of the subtree has either no children or all eight. -/
def fullInv : ONode → Bool
  | .null => true
  | .node _ _ _ _ k0 k1 k2 k3 k4 k5 k6 k7 =>
    (decide ((k0 = .null ∧ k1 = .null ∧ k2 = .null ∧ k3 = .null ∧
              k4 = .null ∧ k5 = .null ∧ k6 = .null ∧ k7 = .null) ∨
             (k0 ≠ .null ∧ k1 ≠ .null ∧ k2 ≠ .null ∧ k3 ≠ .null ∧
              k4 ≠ .null ∧ k5 ≠ .null ∧ k6 ≠ .null ∧ k7 ≠ .null)) &&
     (fullInv k0 && fullInv k1 && fullInv k2 && fullInv k3 &&
      fullInv k4 && fullInv k5 && fullInv k6 && fullInv k7))

/-- Same branching structure: child slots are present/absent at the
same positions, recursively. -/
def sameStructure : ONode → ONode → Bool
  | .null, .null => true
  | .node _ _ _ _ a0 a1 a2 a3 a4 a5 a6 a7, .node _ _ _ _ b0 b1 b2 b3 b4 b5 b6 b7 =>
    sameStructure a0 b0 && sameStructure a1 b1 && sameStructure a2 b2 &&
    sameStructure a3 b3 && sameStructure a4 b4 && sameStructure a5 b5 &&
    sameStructure a6 b6 && sameStructure a7 b7
  | _, _ => false

/-- Occupancy-class agreement at the leaves: a leaf of the first tree
must correspond to a leaf of the second with the same occupancy
class; inner nodes only need matching subtrees (their own class is
re-derived on decode). -/
def occClassMatch (cfg : TreeCfg) : ONode → ONode → Bool
  | .null, .null => true
  | .node v r st a a0 a1 a2 a3 a4 a5 a6 a7, .node w q su b b0 b1 b2 b3 b4 b5 b6 b7 =>
    if (ONode.node v r st a a0 a1 a2 a3 a4 a5 a6 a7).hasChildren then
      (ONode.node w q su b b0 b1 b2 b3 b4 b5 b6 b7).hasChildren &&
      (occClassMatch cfg a0 b0 && occClassMatch cfg a1 b1 && occClassMatch cfg a2 b2 &&
       occClassMatch cfg a3 b3 && occClassMatch cfg a4 b4 && occClassMatch cfg a5 b5 &&
       occClassMatch cfg a6 b6 && occClassMatch cfg a7 b7)
    else
      !(ONode.node w q su b b0 b1 b2 b3 b4 b5 b6 b7).hasChildren &&
      (RoughOcTree.isNodeOccupied cfg (.node w q su b b0 b1 b2 b3 b4 b5 b6 b7) =
       RoughOcTree.isNodeOccupied cfg (.node v r st a a0 a1 a2 a3 a4 a5 a6 a7))
  | _, _ => false

/-- The spec's description of `averageChildRoughness(node)`: the exact
arithmetic mean of `roughness` over the children where it is set, NaN
(`none`) when no child has a set value.  Stated from the spec's words,
for comparison with the source's `getAverageChildRough`. -/
def averageChildRoughSpec (n : ONode) : Option ℚ :=
  let vals := n.childrenList.filterMap (fun c =>
    match c with
    | .null => none
    | c => c.rough)
  if vals.length > 0 then some (vals.sum / vals.length) else none

/-! ### The mean-child-stairs pipeline over ℝ with IEEE special values

`getMeanChildStairLogOdds` runs probabilities through `exp`/`log`, so
this one component is modelled over the reals extended with the
special values the C math library produces. -/

/-- A C `float`/`double` value: finite, an infinity, or NaN. -/
inductive FV : Type where
  | fin : ℝ → FV
  | ninf : FV
  | pinf : FV
  | nan : FV

/-- C `log` on a finite argument: `log 0 = -∞`, negative arguments
give NaN. -/
noncomputable def clog (x : ℝ) : FV :=
  if x > 0 then .fin (Real.log x) else if x = 0 then .ninf else .nan

/-- `getStairProbability`: `probability(stair_logodds)`, i.e.
`1 / (1 + exp(-l))`. -/
noncomputable def stairProbR (lo : ℚ) : ℝ := 1 / (1 + Real.exp (-(lo : ℝ)))

/-- `RoughOcTreeNode::getMeanChildStairLogOdds`: accumulate the stair
probabilities of the existing children, divide by their count when
positive, and return `log(mean / (1 - mean))` — with no children the
mean stays `0` and the result is `log 0 = -∞`.  (A mean of exactly
`1` would give `1 / +0 = +∞` and `log(+∞) = +∞` in C; that branch is
made explicit because real division by zero is not C division.) -/
noncomputable def ONode.getMeanChildStairLogOdds (n : ONode) : FV :=
  let present := n.childrenList.filter (fun c => c ≠ .null)
  let acc : ℝ := (present.map (fun k => stairProbR k.stair)).sum
  let mean : ℝ := if present.length > 0 then acc / present.length else acc
  if (1 : ℝ) - mean = 0 then .pinf else clog (mean / (1 - mean))

/-! ### Concrete instances for counterexamples and witnesses -/

/-- Shorthand for a childless node (agent tag 0). -/
def oLeaf (v : ℚ) (r : Option ℚ) (s : ℚ) : ONode :=
  .node v r s 0 .null .null .null .null .null .null .null .null

/-- A representative configuration: octomap's clamping bounds as the
exact rationals −2 and 7/2, occupancy and stairs thresholds 0,
roughness binarization threshold 0.99, 16 roughness bins. -/
def cfgStd (d : Nat) (cd : Bool) (m : RBEMode) : TreeCfg :=
  ⟨d, -2, 7/2, 0, 0, 99/100, 16, cd, m⟩

/-- A node with two children whose roughness is 1/2 (and six absent
children). -/
def twoHalfRoughNode : ONode :=
  .node 0 none 0 0 (oLeaf 1 (some (1/2)) 0) (oLeaf 1 (some (1/2)) 0)
    .null .null .null .null .null .null

/-- Eight childless children sharing occupancy value 1 but with
differing roughness, stairs and agent values. -/
def mixedAttrNode : ONode :=
  .node 9 (some (1/3)) 0 0
    (oLeaf 1 (some (1/4)) 0) (.node 1 (some (3/4)) 5 2 .null .null .null .null .null .null .null .null)
    (oLeaf 1 none 1) (oLeaf 1 (some 1) 0)
    (oLeaf 1 none 2) (oLeaf 1 (some (1/2)) 0)
    (oLeaf 1 none 0) (oLeaf 1 (some (1/8)) 0)

/-- Like `mixedAttrNode` but child 0 has unset (NaN) roughness while
the parent's own roughness is set. -/
def unsetChild0Node : ONode :=
  .node 9 (some (1/3)) 0 0
    (oLeaf 1 none 0) (oLeaf 1 (some (3/4)) 0)
    (oLeaf 1 (some (1/4)) 0) (oLeaf 1 (some 1) 0)
    (oLeaf 1 none 0) (oLeaf 1 (some (1/2)) 0)
    (oLeaf 1 none 0) (oLeaf 1 (some (1/8)) 0)

/-- A single-node tree whose root is a free leaf (log-odds at the
lower clamp −2). -/
def freeRootTree : TreeState := ⟨oLeaf (-2) none 0, []⟩

/-- A 24-bit THRESHOLDING stream classifying child 0 as an occupied
leaf and the other seven children as unknown/absent. -/
def oneChildBits : List Bool := [false, true, false] ++ List.replicate 21 false

/-- A depth-2 tree: child 0 is an inner node with an occupied and a
free grandchild, child 1 an occupied leaf with roughness 0.999. -/
def depth2Tree : ONode :=
  .node 0 none 0 0
    (.node 0 none 0 0 (oLeaf 3 (some 1) 0) (oLeaf (-2) none 0)
       .null .null .null .null .null .null)
    (oLeaf (7/2) (some (999/1000)) 0)
    .null .null .null .null .null .null

/-- A node whose only child is an occupied leaf with roughness 0.80. -/
def rough08Node : ONode :=
  .node 0 none 0 0 (oLeaf (7/2) (some (4/5)) 0) .null .null .null .null .null .null .null

/-! ### Round-trip agreement predicates

C1 is a refinement claim, so the spec's words — "a tree equal to T on
each node's occupancy class, with roughness recovered" — are rendered
here as decidable relations between an original subtree and its
decoded counterpart, to be compared with the source-derived
writer/reader pair. -/

/-- Every set roughness value in the subtree lies in `[0, 1]` (the
spec's range for the roughness channel). -/
def roughInRange : ONode → Bool
  | .null => true
  | .node _ r _ _ k0 k1 k2 k3 k4 k5 k6 k7 =>
    (match r with | none => true | some x => decide (0 ≤ x ∧ x ≤ 1)) &&
    (roughInRange k0 && roughInRange k1 && roughInRange k2 && roughInRange k3 &&
     roughInRange k4 && roughInRange k5 && roughInRange k6 && roughInRange k7)

/-- Modelled from the spec, amended for THRESHOLDING: the decoded tree
mirrors the original's branching structure; a leaf keeps its occupancy
class; an occupied leaf's roughness decodes to the one recorded bit —
the binarization threshold when the original roughness exceeds it,
zero otherwise (not "within one bin" as the claim states for this
mode). -/
def threshRT (cfg : TreeCfg) : ONode → ONode → Bool
  | .null, .null => true
  | .node v r st a a0 a1 a2 a3 a4 a5 a6 a7, .node w q su b b0 b1 b2 b3 b4 b5 b6 b7 =>
    if (ONode.node v r st a a0 a1 a2 a3 a4 a5 a6 a7).hasChildren then
      (ONode.node w q su b b0 b1 b2 b3 b4 b5 b6 b7).hasChildren &&
      (threshRT cfg a0 b0 && threshRT cfg a1 b1 && threshRT cfg a2 b2 &&
       threshRT cfg a3 b3 && threshRT cfg a4 b4 && threshRT cfg a5 b5 &&
       threshRT cfg a6 b6 && threshRT cfg a7 b7)
    else
      !(ONode.node w q su b b0 b1 b2 b3 b4 b5 b6 b7).hasChildren &&
      (RoughOcTree.isNodeOccupied cfg (.node w q su b b0 b1 b2 b3 b4 b5 b6 b7) =
       RoughOcTree.isNodeOccupied cfg (.node v r st a a0 a1 a2 a3 a4 a5 a6 a7)) &&
      (if RoughOcTree.isNodeOccupied cfg (.node v r st a a0 a1 a2 a3 a4 a5 a6 a7) then
         q = some (if roughOver (.node v r st a a0 a1 a2 a3 a4 a5 a6 a7) cfg.roughBinaryThres
                   then cfg.roughBinaryThres else 0)
       else true)
  | _, _ => false

/-- Modelled from the spec for BINNING: branching structure and leaf
occupancy class as in THRESHOLDING; an occupied leaf's set roughness
decodes to a set value within one bin size of the original, and
exactly equal whenever the original value is bin-aligned. -/
def binRT (cfg : TreeCfg) : ONode → ONode → Bool
  | .null, .null => true
  | .node v r st a a0 a1 a2 a3 a4 a5 a6 a7, .node w q su b b0 b1 b2 b3 b4 b5 b6 b7 =>
    if (ONode.node v r st a a0 a1 a2 a3 a4 a5 a6 a7).hasChildren then
      (ONode.node w q su b b0 b1 b2 b3 b4 b5 b6 b7).hasChildren &&
      (binRT cfg a0 b0 && binRT cfg a1 b1 && binRT cfg a2 b2 &&
       binRT cfg a3 b3 && binRT cfg a4 b4 && binRT cfg a5 b5 &&
       binRT cfg a6 b6 && binRT cfg a7 b7)
    else
      !(ONode.node w q su b b0 b1 b2 b3 b4 b5 b6 b7).hasChildren &&
      (RoughOcTree.isNodeOccupied cfg (.node w q su b b0 b1 b2 b3 b4 b5 b6 b7) =
       RoughOcTree.isNodeOccupied cfg (.node v r st a a0 a1 a2 a3 a4 a5 a6 a7)) &&
      (if RoughOcTree.isNodeOccupied cfg (.node v r st a a0 a1 a2 a3 a4 a5 a6 a7) then
         match r, q with
         | some x, some y =>
           decide (|x - y| < RoughOcTree.binsizeQ cfg) &&
           (if x = (⌊x / RoughOcTree.binsizeQ cfg⌋ : ℚ) * RoughOcTree.binsizeQ cfg then
              decide (y = x)
            else true)
         | none, _ => true
         | some _, none => false
       else true)
  | _, _ => false

/-! ## Theorems -/

open RoughOcTree

section ClaimTheorems

attribute [local semireducible] Rat.add Rat.mul Rat.sub Rat.inv

/-- **C2** (code bug).  `getAverageChildRough` accumulates the float
roughness values in an `int`, truncating at every addition and at the
final division: two children with roughness 1/2 average to 0, not to
the arithmetic mean 1/2 that the claim (and the spec) state. -/
theorem C2_averageChildRough_truncates :
    twoHalfRoughNode.getAverageChildRough = some 0 ∧
    averageChildRoughSpec twoHalfRoughNode = some (1 / 2) ∧
    twoHalfRoughNode.getAverageChildRough ≠ averageChildRoughSpec twoHalfRoughNode := by
  refine ⟨by decide, by decide, by decide⟩

/-- **C7** (counterexample).  With `B = 16`, `binSize = 1/15` exactly,
and `0.80 / binSize = 12`: the encoder's bin index for roughness 0.80
is `floor(0.80 / binSize) = 12`, not 11 as the claim computes from
the rounded value 0.0667. -/
theorem C7_binIdx_counterexample :
    binRoughIdx (cfgStd 2 false .binning) (4 / 5) = 12 ∧ (12 : ℤ) ≠ 11 := by
  refine ⟨by decide, by decide⟩

/-- **C7** (amended).  Encoding an occupied leaf with roughness 0.80
at `B = 16` produces bin index 12 (bits `0011` LSB-first), whose
decoding restores roughness `12/15 = 0.80` exactly; decoding bin
index 11 yields `11 * binSize = 11/15 ≈ 0.733` as the claim's second
half states. -/
theorem C7_binning_scenario :
    binRoughIdx (cfgStd 2 false .binning) (4 / 5) = 12 ∧
    writeBinBinning (cfgStd 2 false .binning) rough08Node =
      [false, true, false, false, true, true, false] ++ List.replicate 49 false ∧
    (readBinBinning (cfgStd 2 false .binning) 2 ONode.default
        (writeBinBinning (cfgStd 2 false .binning) rough08Node)).map
      (fun p => (p.1.child 0).rough) = some (some (4 / 5)) ∧
    (binMakeChild (cfgStd 2 false .binning) (false, true, [true, true, false, true], false)).rough
      = some (11 / 15) ∧
    (11 : ℚ) * binsizeQ (cfgStd 2 false .binning) = 11 / 15 := by
  refine ⟨by decide, by decide, by decide, by decide, by decide⟩

/-- **C8** (code bug).  On an empty depth-2 tree with change
detection on, a single positive stairs update materialises the leaf
at `key = [0,0]`, yet the changed-keys set receives `([0,0], false)`
— not `(key, true)` as the claim (and spec) require for a freshly
created leaf: the expansion path of `updateNodeStairsRecurs` never
sets `created_node`, so the leaf reaches the bottom case with
`node_just_created = false` and is recorded through the
classification-flip path instead. -/
theorem C8_freshLeaf_records_false :
    (⟨.null, []⟩ : TreeState).root = .null ∧
    (updateNodeStairs (cfgStd 2 true .binning) ⟨.null, []⟩ [0, 0] (6 / 25)).1.ck
      = [([0, 0], false)] ∧
    kbFind (updateNodeStairs (cfgStd 2 true .binning) ⟨.null, []⟩ [0, 0] (6 / 25)).1.ck [0, 0]
      ≠ some true := by
  refine ⟨rfl, by decide, by decide⟩

/-- **C3** (confirmed).  When a node exists at `key` whose stairs
log-odds sits at the clamp rail the update pushes toward, the update
returns that node and the tree state — root and changed-keys map —
is entirely unchanged. -/
theorem C3_earlyAbort_no_mutation (cfg : TreeCfg) (t : TreeState) (key : OcKey) (u : ℚ)
    (hfound : search t key ≠ .null)
    (hrail : (u ≥ 0 ∧ (search t key).stair = cfg.clampMax) ∨
             (u ≤ 0 ∧ (search t key).stair = cfg.clampMin)) :
    updateNodeStairs cfg t key u = (t, search t key) := by
  simp only [updateNodeStairs]
  rw [if_pos]
  refine ⟨hfound, ?_⟩
  rcases hrail with ⟨h1, h2⟩ | ⟨h1, h2⟩
  · exact Or.inl ⟨h1, h2.ge⟩
  · exact Or.inr ⟨h1, h2.le⟩

/-- Witness for C3: a tree whose root leaf has stairs log-odds at
`clampMax = 7/2`, hit with a positive update. -/
theorem C3_earlyAbort_witness :
    search ⟨oLeaf 0 none (7 / 2), []⟩ [0, 0] ≠ .null ∧
    ((1 : ℚ) ≥ 0 ∧ (search ⟨oLeaf 0 none (7 / 2), []⟩ [0, 0]).stair
        = (cfgStd 2 true .binning).clampMax) ∧
    updateNodeStairs (cfgStd 2 true .binning) ⟨oLeaf 0 none (7 / 2), []⟩ [0, 0] 1
      = (⟨oLeaf 0 none (7 / 2), []⟩, search ⟨oLeaf 0 none (7 / 2), []⟩ [0, 0]) :=
  ⟨by decide, ⟨by norm_num, by decide⟩,
    C3_earlyAbort_no_mutation (cfgStd 2 true .binning) ⟨oLeaf 0 none (7 / 2), []⟩ [0, 0] 1
      (by decide) (Or.inl ⟨by norm_num, by decide⟩)⟩

/-- **C4** (counterexample).  `setNodeStairLogOdds` is a mutating
public operation, yet writing the value 4 through it leaves a stairs
log-odds of `4 > clampMax = 7/2` in the tree: the stairs clamp
invariant does not hold after every public mutation. -/
theorem C4_setter_unclamped_counterexample :
    (search (setNodeStairLogOdds ⟨oLeaf 0 none 0, []⟩ [0, 0] 4).1 [0, 0]).stair = 4 ∧
    ¬ ((cfgStd 2 false .binning).clampMin ≤ (4 : ℚ) ∧
       (4 : ℚ) ≤ (cfgStd 2 false .binning).clampMax) := by
  refine ⟨by decide, by decide⟩

/-- **C4** (amended).  The stairs update path clamps: whenever
`clampMin ≤ clampMax`, `updateNodeStairLogOdds` leaves the stairs
log-odds inside `[clampMin, clampMax]`; the direct setter
`setNodeStairLogOdds`, by contrast, stores its argument verbatim on
the found node, so its callers get no clamping. -/
theorem C4_stairClamp_amended (cfg : TreeCfg) (hcl : cfg.clampMin ≤ cfg.clampMax) :
    (∀ (n : ONode), n ≠ .null → ∀ u : ℚ,
        cfg.clampMin ≤ (updateNodeStairLogOdds cfg n u).stair ∧
        (updateNodeStairLogOdds cfg n u).stair ≤ cfg.clampMax) ∧
    (∀ (t : TreeState) (k : OcKey) (v : ℚ), search t k ≠ .null →
        (setNodeStairLogOdds t k v).2.stair = v) := by
  constructor
  · intro n hn u
    cases n with
    | null => exact absurd rfl hn
    | node v r st a k0 k1 k2 k3 k4 k5 k6 k7 =>
      simp only [updateNodeStairLogOdds, ONode.setStair, ONode.stair]
      split_ifs with h1 h2
      · simp only [ONode.setStair, ONode.stair]
        exact ⟨le_refl _, hcl⟩
      · simp only [ONode.setStair, ONode.stair]
        exact ⟨hcl, le_refl _⟩
      · simp only [ONode.stair]
        constructor <;> linarith
  · intro t k v hfound
    simp only [setNodeStairLogOdds]
    rw [if_pos hfound]
    cases h : search t k with
    | null => exact absurd h hfound
    | node w q su b b0 b1 b2 b3 b4 b5 b6 b7 => simp [ONode.setStair, ONode.stair]

/-- Witness for C4's amended clamp statement: a large positive update
on a fresh leaf lands exactly on `clampMax`; the raw setter stores 4
verbatim. -/
theorem C4_stairClamp_witness :
    ((cfgStd 2 false .binning).clampMin
        ≤ (updateNodeStairLogOdds (cfgStd 2 false .binning) (oLeaf 0 none 0) 100).stair ∧
      (updateNodeStairLogOdds (cfgStd 2 false .binning) (oLeaf 0 none 0) 100).stair
        ≤ (cfgStd 2 false .binning).clampMax) ∧
    (setNodeStairLogOdds ⟨oLeaf 0 none 0, []⟩ [0, 0] 4).2.stair = 4 :=
  ⟨(C4_stairClamp_amended (cfgStd 2 false .binning) (by decide)).1 (oLeaf 0 none 0)
      (by decide) 100,
    (C4_stairClamp_amended (cfgStd 2 false .binning) (by decide)).2
      ⟨oLeaf 0 none 0, []⟩ [0, 0] 4 (by decide)⟩

/-- `isNodeCollapsible` on an explicit node, as a proposition: child
0 exists and is childless, and children 1..7 exist, are childless and
share child 0's occupancy value. -/
theorem isNodeCollapsible_node_iff (v : ℚ) (r : Option ℚ) (st : ℚ) (a : ℤ)
    (k0 k1 k2 k3 k4 k5 k6 k7 : ONode) :
    isNodeCollapsible (.node v r st a k0 k1 k2 k3 k4 k5 k6 k7) = true ↔
      (k0 ≠ .null ∧ k0.hasChildren = false ∧
       (k1 ≠ .null ∧ k1.hasChildren = false ∧ k1.value = k0.value) ∧
       (k2 ≠ .null ∧ k2.hasChildren = false ∧ k2.value = k0.value) ∧
       (k3 ≠ .null ∧ k3.hasChildren = false ∧ k3.value = k0.value) ∧
       (k4 ≠ .null ∧ k4.hasChildren = false ∧ k4.value = k0.value) ∧
       (k5 ≠ .null ∧ k5.hasChildren = false ∧ k5.value = k0.value) ∧
       (k6 ≠ .null ∧ k6.hasChildren = false ∧ k6.value = k0.value) ∧
       (k7 ≠ .null ∧ k7.hasChildren = false ∧ k7.value = k0.value)) := by
  simp only [isNodeCollapsible, ONode.childExists, ONode.child, ONode.childrenList]
  simp [Bool.not_eq_true, List.getD, decide_eq_true_eq, and_assoc,
    Fin.isValue, bne_iff_ne]
  tauto

/-- **C6** (confirmed).  The collapsibility test returns true exactly
when all 8 children exist, none has children of its own, and all
share child 0's occupancy value — roughness, stairs and agent play no
role — and a collapsible node is pruned successfully. -/
theorem C6_collapsible_iff (n : ONode) :
    (isNodeCollapsible n = true ↔
      ∀ i : Fin 8, n.child i ≠ .null ∧ (n.child i).hasChildren = false ∧
        (n.child i).value = (n.child 0).value) ∧
    (isNodeCollapsible n = true → pruneNode n = (true, pruneNodeApply n)) := by
  refine ⟨?_, fun hc => by simp [pruneNode, hc]⟩
  cases n with
  | null =>
    constructor
    · intro h; exact absurd h (by decide)
    · intro h; exact absurd rfl (h 0).1
  | node v r st a k0 k1 k2 k3 k4 k5 k6 k7 =>
    rw [isNodeCollapsible_node_iff]
    constructor
    · rintro ⟨h0, h0c, ⟨e1, c1, w1⟩, ⟨e2, c2, w2⟩, ⟨e3, c3, w3⟩, ⟨e4, c4, w4⟩,
        ⟨e5, c5, w5⟩, ⟨e6, c6, w6⟩, ⟨e7, c7, w7⟩⟩ i
      fin_cases i
      · exact ⟨h0, h0c, rfl⟩
      · exact ⟨e1, c1, w1⟩
      · exact ⟨e2, c2, w2⟩
      · exact ⟨e3, c3, w3⟩
      · exact ⟨e4, c4, w4⟩
      · exact ⟨e5, c5, w5⟩
      · exact ⟨e6, c6, w6⟩
      · exact ⟨e7, c7, w7⟩
    · intro h
      exact ⟨(h 0).1, (h 0).2.1, (h 1), (h 2), (h 3), (h 4), (h 5), (h 6), (h 7)⟩

/-- Witness for C6: eight children with identical occupancy 1 but
differing roughness, stairs and agent values are collapsible, and the
prune succeeds. -/
theorem C6_collapsible_witness :
    isNodeCollapsible mixedAttrNode = true ∧ pruneNode mixedAttrNode = (true, pruneNodeApply mixedAttrNode) :=
  ⟨by decide, (C6_collapsible_iff mixedAttrNode).2 (by decide)⟩

/-- What `pruneNodeApply` does to a node, in closed form: child 0's
value, roughness and agent are copied, the roughness is re-aggregated
exactly when child 0's roughness is set, and the children are
discarded. -/
theorem pruneNodeApply_eq (v : ℚ) (r : Option ℚ) (st : ℚ) (a : ℤ)
    (k0 k1 k2 k3 k4 k5 k6 k7 : ONode) :
    pruneNodeApply (.node v r st a k0 k1 k2 k3 k4 k5 k6 k7) =
      if k0.rough.isSome then
        .node k0.value
          ((ONode.node k0.value k0.rough st k0.agent k0 k1 k2 k3 k4 k5 k6 k7).getAverageChildRough)
          st k0.agent .null .null .null .null .null .null .null .null
      else
        .node k0.value k0.rough st k0.agent .null .null .null .null .null .null .null .null := by
  cases k0 with
  | null => rfl
  | node v0 r0 st0 a0 c0 c1 c2 c3 c4 c5 c6 c7 =>
    cases r0 with
    | none => rfl
    | some q0 => rfl

/-- **C10** (confirmed).  A successful prune copies child 0's full
data — occupancy value, roughness and agent tag — into the parent,
and the roughness-recompute step is conditioned on the roughness just
copied from child 0: when child 0's roughness is unset the parent
ends with unset roughness (whatever its own roughness was before),
and when it is set the parent gets the children's aggregate. -/
theorem C10_prune_copies_child0 (n : ONode) (hc : isNodeCollapsible n = true) :
    pruneNode n = (true, pruneNodeApply n) ∧
    (pruneNode n).2.value = (n.child 0).value ∧
    (pruneNode n).2.agent = (n.child 0).agent ∧
    ((n.child 0).rough = none → (pruneNode n).2.rough = none) ∧
    ((n.child 0).rough.isSome → (pruneNode n).2.rough = n.getAverageChildRough) := by
  have hp : pruneNode n = (true, pruneNodeApply n) := by
    simp [pruneNode, hc]
  cases n with
  | null =>
    exfalso
    simp [isNodeCollapsible, ONode.childExists, ONode.child, ONode.childrenList] at hc
  | node v r st a k0 k1 k2 k3 k4 k5 k6 k7 =>
    refine ⟨hp, ?_⟩
    rw [hp]
    have hchild0 : (ONode.node v r st a k0 k1 k2 k3 k4 k5 k6 k7).child 0 = k0 := rfl
    rw [hchild0]
    rw [pruneNodeApply_eq]
    cases hk : k0.rough with
    | none =>
      simp only [hk, Option.isSome_none, Bool.false_eq_true, if_false]
      refine ⟨?_, ?_, ?_, ?_⟩
      · simp [ONode.value]
      · simp [ONode.agent]
      · intro _; simp [ONode.rough, hk]
      · intro h; simp at h
    | some q =>
      have hgac : (ONode.node k0.value k0.rough st k0.agent k0 k1 k2 k3 k4 k5 k6 k7).getAverageChildRough
          = (ONode.node v r st a k0 k1 k2 k3 k4 k5 k6 k7).getAverageChildRough := by
        simp only [ONode.getAverageChildRough, ONode.childrenList]
      simp only [hk, Option.isSome_some, if_true]
      refine ⟨?_, ?_, ?_, ?_⟩
      · simp [ONode.value]
      · simp [ONode.agent]
      · intro h; simp at h
      · intro _
        simp only [ONode.rough]
        rw [← hgac]
        simp only [hk]

/-- Witness for C10: `unsetChild0Node` is collapsible, its own
roughness is set, child 0's is unset, and pruning leaves the parent's
roughness unset. -/
theorem C10_prune_witness :
    isNodeCollapsible unsetChild0Node = true ∧
    unsetChild0Node.rough = some (1 / 3) ∧
    (pruneNode unsetChild0Node).2.rough = none :=
  ⟨by decide, by decide,
    (C10_prune_copies_child0 unsetChild0Node (by decide)).2.2.2.1 (by decide)⟩

/-- `getStairProbability` lies strictly between 0 and 1. -/
theorem stairProbR_pos_lt_one (lo : ℚ) : 0 < stairProbR lo ∧ stairProbR lo < 1 := by
  unfold stairProbR
  have he : 0 < Real.exp (-(lo : ℝ)) := Real.exp_pos _
  constructor
  · positivity
  · rw [div_lt_one (by linarith)]
    linarith

/-- Sums of child stair probabilities are within `[0, length]`. -/
theorem sum_stairProb_bounds (l : List ONode) :
    0 ≤ (l.map (fun k => stairProbR k.stair)).sum ∧
    (l.map (fun k => stairProbR k.stair)).sum ≤ (l.length : ℝ) := by
  induction l with
  | nil => simp
  | cons x xs ih =>
    have hx := stairProbR_pos_lt_one x.stair
    simp only [List.map_cons, List.sum_cons, List.length_cons]
    push_cast
    constructor <;> linarith [ih.1, ih.2]

/-- On a nonempty child list the probability sum is strictly between
0 and the length. -/
theorem sum_stairProb_strict (x : ONode) (xs : List ONode) :
    0 < (((x :: xs).map (fun k => stairProbR k.stair)).sum) ∧
    (((x :: xs).map (fun k => stairProbR k.stair)).sum) < ((x :: xs).length : ℝ) := by
  have hx := stairProbR_pos_lt_one x.stair
  have hxs := sum_stairProb_bounds xs
  simp only [List.map_cons, List.sum_cons, List.length_cons]
  push_cast
  constructor <;> linarith [hxs.1, hxs.2]

/-- `hasChildren` is the nonemptiness of the non-null child filter. -/
theorem hasChildren_iff_filter (n : ONode) :
    n.hasChildren = true ↔ n.childrenList.filter (fun c => c ≠ .null) ≠ [] := by
  rw [Ne, List.filter_eq_nil_iff]
  simp [ONode.hasChildren, List.any_eq_true]

/-- The max-stairs fold dominates its initial value and every
non-null element, and is the initial value or attained. -/
theorem foldl_stairMax_spec (l : List ONode) : ∀ init : ℚ,
    (init ≤ l.foldl
        (fun m c => match c with | .null => m | c => if c.stair > m then c.stair else m) init) ∧
    (∀ c ∈ l, c ≠ .null → c.stair ≤ l.foldl
        (fun m c => match c with | .null => m | c => if c.stair > m then c.stair else m) init) ∧
    (l.foldl (fun m c => match c with | .null => m | c => if c.stair > m then c.stair else m) init
        = init ∨
     ∃ c ∈ l, c ≠ .null ∧
       l.foldl (fun m c => match c with | .null => m | c => if c.stair > m then c.stair else m) init
         = c.stair) := by
  induction l with
  | nil =>
    intro init
    refine ⟨le_refl _, ?_, Or.inl rfl⟩
    intro c hc
    simp at hc
  | cons c cs ih =>
    intro init
    have hstep : init ≤ (fun m c => match c with
        | ONode.null => m
        | c => if c.stair > m then c.stair else m) init c := by
      cases c with
      | null => exact le_refl _
      | node v r st a c0 c1 c2 c3 c4 c5 c6 c7 =>
        show init ≤ if (ONode.node v r st a c0 c1 c2 c3 c4 c5 c6 c7).stair > init then _ else init
        split
        · linarith
        · exact le_refl _
    have hcstep : c ≠ .null → c.stair ≤ (fun m c => match c with
        | ONode.null => m
        | c => if c.stair > m then c.stair else m) init c := by
      intro hc
      cases c with
      | null => exact absurd rfl hc
      | node v r st a c0 c1 c2 c3 c4 c5 c6 c7 =>
        show _ ≤ if (ONode.node v r st a c0 c1 c2 c3 c4 c5 c6 c7).stair > init then _ else init
        split
        · exact le_refl _
        · linarith
    obtain ⟨ih1, ih2, ih3⟩ := ih ((fun m c => match c with
        | ONode.null => m
        | c => if c.stair > m then c.stair else m) init c)
    simp only [List.foldl_cons]
    refine ⟨le_trans hstep ih1, ?_, ?_⟩
    · intro x hx hxn
      rcases List.mem_cons.mp hx with rfl | hx2
      · exact le_trans (hcstep hxn) ih1
      · exact ih2 x hx2 hxn
    · rcases ih3 with heq | ⟨x, hx, hxn, hxe⟩
      · cases c with
        | null => exact Or.inl heq
        | node v r st a c0 c1 c2 c3 c4 c5 c6 c7 =>
          by_cases h : (ONode.node v r st a c0 c1 c2 c3 c4 c5 c6 c7).stair > init
          · refine Or.inr ⟨_, List.mem_cons_self _ _, fun hh => ONode.noConfusion hh, ?_⟩
            rw [heq]
            show (if (ONode.node v r st a c0 c1 c2 c3 c4 c5 c6 c7).stair > init then
                (ONode.node v r st a c0 c1 c2 c3 c4 c5 c6 c7).stair else init) = _
            rw [if_pos h]
          · refine Or.inl ?_
            rw [heq]
            show (if (ONode.node v r st a c0 c1 c2 c3 c4 c5 c6 c7).stair > init then
                (ONode.node v r st a c0 c1 c2 c3 c4 c5 c6 c7).stair else init) = init
            rw [if_neg h]
      · exact Or.inr ⟨x, List.mem_cons_of_mem _ hx, hxn, hxe⟩

/-- `hasChildren = false` means every child slot is null. -/
theorem hasChildren_false_all_null (n : ONode) (h : n.hasChildren = false) :
    ∀ c ∈ n.childrenList, c = .null := by
  intro c hc
  by_contra hne
  have : n.hasChildren = true := by
    simp only [ONode.hasChildren, List.any_eq_true]
    exact ⟨c, hc, by simpa [bne_iff_ne] using hne⟩
  rw [h] at this
  exact Bool.noConfusion this

/-- **C9** (counterexample).  On a node with no children the
mean-child-stairs aggregate is `log 0 = -∞`, not NaN as the claim
states. -/
theorem C9_mean_counterexample :
    (oLeaf 0 none 0).getMeanChildStairLogOdds = FV.ninf ∧ FV.ninf ≠ FV.nan := by
  constructor
  · simp only [ONode.getMeanChildStairLogOdds, ONode.childrenList, oLeaf]
    norm_num [clog]
  · intro h; exact FV.noConfusion h

/-- **C9** (amended).  With no children the mean aggregate is `-∞`
(the C library's `log 0`, not NaN) and the max aggregate is the most
negative representable float `-FLT_MAX`; with children, the mean
aggregate is the finite log-odds of the arithmetic mean `m ∈ (0,1)`
of the present children's stair probabilities, and the max aggregate
dominates every present child's raw stair log-odds and is `-FLT_MAX`
or attained by one of them. -/
theorem C9_stairAggregates (n : ONode) :
    (n.hasChildren = false →
      n.getMeanChildStairLogOdds = FV.ninf ∧ n.getMaxChildStairLogOdds = -fltMaxQ) ∧
    (n.hasChildren = true →
      (∃ m : ℝ,
        m = ((n.childrenList.filter (fun c => c ≠ .null)).map (fun k => stairProbR k.stair)).sum
              / ((n.childrenList.filter (fun c => c ≠ .null)).length : ℝ) ∧
        0 < m ∧ m < 1 ∧
        n.getMeanChildStairLogOdds = FV.fin (Real.log (m / (1 - m)))) ∧
      (∀ c ∈ n.childrenList, c ≠ .null → c.stair ≤ n.getMaxChildStairLogOdds) ∧
      (n.getMaxChildStairLogOdds = -fltMaxQ ∨
       ∃ c ∈ n.childrenList, c ≠ .null ∧ n.getMaxChildStairLogOdds = c.stair)) := by
  constructor
  · intro h
    have hfil : n.childrenList.filter (fun c => c ≠ .null) = [] := by
      rw [List.filter_eq_nil_iff]
      intro c hc
      simpa using hasChildren_false_all_null n h c hc
    constructor
    · simp only [ONode.getMeanChildStairLogOdds, hfil]
      norm_num [clog]
    · obtain ⟨-, -, h3⟩ := foldl_stairMax_spec n.childrenList (-fltMaxQ)
      rcases h3 with heq | ⟨c, hc, hcn, -⟩
      · exact heq
      · exact absurd (hasChildren_false_all_null n h c hc) hcn
  · intro h
    refine ⟨?_, ?_, ?_⟩
    · obtain ⟨x, xs, hxxs⟩ : ∃ x xs, n.childrenList.filter (fun c => c ≠ .null) = x :: xs := by
        cases hfil : n.childrenList.filter (fun c => c ≠ .null) with
        | nil => exact absurd hfil ((hasChildren_iff_filter n).mp h)
        | cons x xs => exact ⟨x, xs, rfl⟩
      obtain ⟨hs1, hs2⟩ := sum_stairProb_strict x xs
      rw [← hxxs] at hs1 hs2
      have hlenpos : (0 : ℝ) < ((n.childrenList.filter (fun c => c ≠ .null)).length : ℝ) := by
        rw [hxxs]
        simp only [List.length_cons]
        push_cast
        linarith [Nat.cast_nonneg (α := ℝ) xs.length]
      have hm0 : 0 <
          ((n.childrenList.filter (fun c => c ≠ .null)).map (fun k => stairProbR k.stair)).sum
            / ((n.childrenList.filter (fun c => c ≠ .null)).length : ℝ) :=
        div_pos hs1 hlenpos
      have hm1 :
          ((n.childrenList.filter (fun c => c ≠ .null)).map (fun k => stairProbR k.stair)).sum
            / ((n.childrenList.filter (fun c => c ≠ .null)).length : ℝ) < 1 :=
        (div_lt_one hlenpos).mpr hs2
      refine ⟨_, rfl, hm0, hm1, ?_⟩
      rw [hxxs] at hm0 hm1
      simp only [ONode.getMeanChildStairLogOdds]
      rw [hxxs]
      rw [if_pos (show 0 < (x :: xs).length by simp)]
      generalize hMdef :
        ((List.map (fun k => stairProbR k.stair) (x :: xs)).sum / ((x :: xs).length : ℝ)) = M
        at hm0 hm1 ⊢
      rw [if_neg (show ¬((1 : ℝ) - M = 0) by intro hz; linarith), clog,
        if_pos (show 0 < M / (1 - M) from div_pos hm0 (by linarith))]
    · intro c hc hcn
      exact (foldl_stairMax_spec n.childrenList (-fltMaxQ)).2.1 c hc hcn
    · rcases (foldl_stairMax_spec n.childrenList (-fltMaxQ)).2.2 with heq | ⟨c, hc, hcn, hce⟩
      · exact Or.inl heq
      · exact Or.inr ⟨c, hc, hcn, hce⟩

/-- Witness for C9: the childless-leaf branch evaluated at a concrete
leaf, and the max-domination conclusion at a concrete one-child
node. -/
theorem C9_stairAggregates_witness :
    ((oLeaf 0 none 0).getMeanChildStairLogOdds = FV.ninf ∧
      (oLeaf 0 none 0).getMaxChildStairLogOdds = -fltMaxQ) ∧
    (∀ c ∈ rough08Node.childrenList, c ≠ .null → c.stair ≤ rough08Node.getMaxChildStairLogOdds) :=
  ⟨(C9_stairAggregates (oLeaf 0 none 0)).1 (by decide),
    ((C9_stairAggregates rough08Node).2 (by decide)).2.1⟩

/-! ### Support for the 0-or-8 child invariant -/

/-- `fullInv` on an explicit node, as a proposition. -/
theorem fullInv_node_iff (v : ℚ) (r : Option ℚ) (st : ℚ) (a : ℤ)
    (k0 k1 k2 k3 k4 k5 k6 k7 : ONode) :
    fullInv (.node v r st a k0 k1 k2 k3 k4 k5 k6 k7) = true ↔
      ((k0 = .null ∧ k1 = .null ∧ k2 = .null ∧ k3 = .null ∧
        k4 = .null ∧ k5 = .null ∧ k6 = .null ∧ k7 = .null) ∨
       (k0 ≠ .null ∧ k1 ≠ .null ∧ k2 ≠ .null ∧ k3 ≠ .null ∧
        k4 ≠ .null ∧ k5 ≠ .null ∧ k6 ≠ .null ∧ k7 ≠ .null)) ∧
      (fullInv k0 = true ∧ fullInv k1 = true ∧ fullInv k2 = true ∧ fullInv k3 = true ∧
       fullInv k4 = true ∧ fullInv k5 = true ∧ fullInv k6 = true ∧ fullInv k7 = true) := by
  simp [fullInv, and_assoc]

/-- Each child of a `fullInv` node satisfies `fullInv`. -/
theorem fullInv_child_of (n : ONode) (i : Fin 8) (h : fullInv n = true) :
    fullInv (n.child i) = true := by
  cases n with
  | null => fin_cases i <;> rfl
  | node v r st a k0 k1 k2 k3 k4 k5 k6 k7 =>
    obtain ⟨-, i1, i2, i3, i4, i5, i6, i7, i8⟩ := (fullInv_node_iff _ _ _ _ _ _ _ _ _ _ _ _).mp h
    fin_cases i <;> assumption

/-- In a `fullInv` node with one existing child, all eight exist. -/
theorem fullInv_allNonnull (v : ℚ) (r : Option ℚ) (st : ℚ) (a : ℤ)
    (k0 k1 k2 k3 k4 k5 k6 k7 : ONode) (i : Fin 8)
    (h : fullInv (.node v r st a k0 k1 k2 k3 k4 k5 k6 k7) = true)
    (hex : (ONode.node v r st a k0 k1 k2 k3 k4 k5 k6 k7).child i ≠ .null) :
    k0 ≠ .null ∧ k1 ≠ .null ∧ k2 ≠ .null ∧ k3 ≠ .null ∧
    k4 ≠ .null ∧ k5 ≠ .null ∧ k6 ≠ .null ∧ k7 ≠ .null := by
  obtain ⟨hd, -⟩ := (fullInv_node_iff _ _ _ _ _ _ _ _ _ _ _ _).mp h
  rcases hd with ⟨e0, e1, e2, e3, e4, e5, e6, e7⟩ | hs
  · exfalso
    subst e0; subst e1; subst e2; subst e3; subst e4; subst e5; subst e6; subst e7
    fin_cases i <;> exact hex rfl
  · exact hs

/-- In a `fullInv` node that has children, every child slot exists. -/
theorem fullInv_hasChildren_exists (v : ℚ) (r : Option ℚ) (st : ℚ) (a : ℤ)
    (k0 k1 k2 k3 k4 k5 k6 k7 : ONode)
    (h : fullInv (.node v r st a k0 k1 k2 k3 k4 k5 k6 k7) = true)
    (hch : (ONode.node v r st a k0 k1 k2 k3 k4 k5 k6 k7).hasChildren = true) (i : Fin 8) :
    (ONode.node v r st a k0 k1 k2 k3 k4 k5 k6 k7).child i ≠ .null := by
  obtain ⟨hd, -⟩ := (fullInv_node_iff _ _ _ _ _ _ _ _ _ _ _ _).mp h
  rcases hd with ⟨e0, e1, e2, e3, e4, e5, e6, e7⟩ | ⟨s0, s1, s2, s3, s4, s5, s6, s7⟩
  · exfalso
    subst e0; subst e1; subst e2; subst e3; subst e4; subst e5; subst e6; subst e7
    exact Bool.noConfusion hch
  · fin_cases i <;> assumption

/-- Replacing a child slot of an all-present `fullInv` node with a
non-null `fullInv` node keeps `fullInv`. -/
theorem fullInv_setChild (v : ℚ) (r : Option ℚ) (st : ℚ) (a : ℤ)
    (k0 k1 k2 k3 k4 k5 k6 k7 : ONode) (i : Fin 8) (c : ONode)
    (hc : c ≠ .null) (hfc : fullInv c = true)
    (hall : k0 ≠ .null ∧ k1 ≠ .null ∧ k2 ≠ .null ∧ k3 ≠ .null ∧
            k4 ≠ .null ∧ k5 ≠ .null ∧ k6 ≠ .null ∧ k7 ≠ .null)
    (hinv : fullInv (.node v r st a k0 k1 k2 k3 k4 k5 k6 k7) = true) :
    fullInv ((ONode.node v r st a k0 k1 k2 k3 k4 k5 k6 k7).setChild i c) = true := by
  obtain ⟨s0, s1, s2, s3, s4, s5, s6, s7⟩ := hall
  obtain ⟨-, i1, i2, i3, i4, i5, i6, i7, i8⟩ := (fullInv_node_iff _ _ _ _ _ _ _ _ _ _ _ _).mp hinv
  fin_cases i
  · exact (fullInv_node_iff _ _ _ _ _ _ _ _ _ _ _ _).mpr
      ⟨Or.inr ⟨hc, s1, s2, s3, s4, s5, s6, s7⟩, hfc, i2, i3, i4, i5, i6, i7, i8⟩
  · exact (fullInv_node_iff _ _ _ _ _ _ _ _ _ _ _ _).mpr
      ⟨Or.inr ⟨s0, hc, s2, s3, s4, s5, s6, s7⟩, i1, hfc, i3, i4, i5, i6, i7, i8⟩
  · exact (fullInv_node_iff _ _ _ _ _ _ _ _ _ _ _ _).mpr
      ⟨Or.inr ⟨s0, s1, hc, s3, s4, s5, s6, s7⟩, i1, i2, hfc, i4, i5, i6, i7, i8⟩
  · exact (fullInv_node_iff _ _ _ _ _ _ _ _ _ _ _ _).mpr
      ⟨Or.inr ⟨s0, s1, s2, hc, s4, s5, s6, s7⟩, i1, i2, i3, hfc, i5, i6, i7, i8⟩
  · exact (fullInv_node_iff _ _ _ _ _ _ _ _ _ _ _ _).mpr
      ⟨Or.inr ⟨s0, s1, s2, s3, hc, s5, s6, s7⟩, i1, i2, i3, i4, hfc, i6, i7, i8⟩
  · exact (fullInv_node_iff _ _ _ _ _ _ _ _ _ _ _ _).mpr
      ⟨Or.inr ⟨s0, s1, s2, s3, s4, hc, s6, s7⟩, i1, i2, i3, i4, i5, hfc, i7, i8⟩
  · exact (fullInv_node_iff _ _ _ _ _ _ _ _ _ _ _ _).mpr
      ⟨Or.inr ⟨s0, s1, s2, s3, s4, s5, hc, s7⟩, i1, i2, i3, i4, i5, i6, hfc, i8⟩
  · exact (fullInv_node_iff _ _ _ _ _ _ _ _ _ _ _ _).mpr
      ⟨Or.inr ⟨s0, s1, s2, s3, s4, s5, s6, hc⟩, i1, i2, i3, i4, i5, i6, i7, hfc⟩

/-- Child access on a node whose eight slots hold the same child. -/
theorem child_uniform (v : ℚ) (r : Option ℚ) (st : ℚ) (a : ℤ) (c : ONode) (i : Fin 8) :
    (ONode.node v r st a c c c c c c c c).child i = c := by
  fin_cases i <;> rfl

/-- `setChild` of a node is never null. -/
theorem setChild_ne_null (v : ℚ) (r : Option ℚ) (st : ℚ) (a : ℤ)
    (k0 k1 k2 k3 k4 k5 k6 k7 : ONode) (i : Fin 8) (c : ONode) :
    (ONode.node v r st a k0 k1 k2 k3 k4 k5 k6 k7).setChild i c ≠ .null := by
  fin_cases i <;> exact fun h => ONode.noConfusion h

/-- The expanded form of a childless node: all eight children are the
parent's copy. -/
theorem expandNode_eq (v : ℚ) (r : Option ℚ) (st : ℚ) (a : ℤ)
    (k0 k1 k2 k3 k4 k5 k6 k7 : ONode) :
    expandNode (.node v r st a k0 k1 k2 k3 k4 k5 k6 k7) =
      .node v r st a
        (.node v r 0 a .null .null .null .null .null .null .null .null)
        (.node v r 0 a .null .null .null .null .null .null .null .null)
        (.node v r 0 a .null .null .null .null .null .null .null .null)
        (.node v r 0 a .null .null .null .null .null .null .null .null)
        (.node v r 0 a .null .null .null .null .null .null .null .null)
        (.node v r 0 a .null .null .null .null .null .null .null .null)
        (.node v r 0 a .null .null .null .null .null .null .null .null)
        (.node v r 0 a .null .null .null .null .null .null .null .null) := rfl

/-- `updateNodeStairLogOdds` keeps the node's children and nullness. -/
theorem updateNodeStairLogOdds_structure (cfg : TreeCfg) (n : ONode) (u : ℚ) :
    fullInv (updateNodeStairLogOdds cfg n u) = fullInv n ∧
    (updateNodeStairLogOdds cfg n u = .null ↔ n = .null) := by
  cases n <;> simp only [updateNodeStairLogOdds] <;> split_ifs <;>
    simp [ONode.setStair, ONode.stair, fullInv]

/-- `updateStairChildren` keeps the node's children and nullness. -/
theorem updateStairChildren_structure (n : ONode) :
    fullInv n.updateStairChildren = fullInv n ∧ (n.updateStairChildren = .null ↔ n = .null) := by
  cases n <;> simp [ONode.updateStairChildren, ONode.setStair, fullInv]

/-- A pruned node is a non-null leaf, hence satisfies `fullInv`. -/
theorem pruneNodeApply_fullInv (v : ℚ) (r : Option ℚ) (st : ℚ) (a : ℤ)
    (k0 k1 k2 k3 k4 k5 k6 k7 : ONode) :
    fullInv (pruneNodeApply (.node v r st a k0 k1 k2 k3 k4 k5 k6 k7)) = true ∧
    pruneNodeApply (.node v r st a k0 k1 k2 k3 k4 k5 k6 k7) ≠ .null := by
  rw [pruneNodeApply_eq]
  split
  · exact ⟨rfl, fun h => ONode.noConfusion h⟩
  · exact ⟨rfl, fun h => ONode.noConfusion h⟩

/-- The recursive stairs update preserves the 0-or-8 invariant and
never returns a null subtree. -/
theorem updateNodeStairsRecurs_fullInv (cfg : TreeCfg) (u : ℚ) (key : OcKey) :
    ∀ (path : List (Fin 8)) (n : ONode) (jc : Bool) (ck : KeyBoolMap),
      n ≠ .null → fullInv n = true →
      (updateNodeStairsRecurs cfg n jc key path u ck).node ≠ .null ∧
      fullInv (updateNodeStairsRecurs cfg n jc key path u ck).node = true := by
  intro path
  induction path with
  | nil =>
    intro n jc ck hn hinv
    obtain ⟨hfi, hnl⟩ := updateNodeStairLogOdds_structure cfg n u
    have hkeep : updateNodeStairLogOdds cfg n u ≠ .null := fun hh => hn (hnl.mp hh)
    simp only [updateNodeStairsRecurs]
    split_ifs <;>
      first
        | exact ⟨hkeep, hfi.trans hinv⟩
        | (split <;> exact ⟨hkeep, hfi.trans hinv⟩)
  | cons i rest ih =>
    intro n jc ck hn hinv
    cases n with
    | null => exact absurd rfl hn
    | node v r st a k0 k1 k2 k3 k4 k5 k6 k7 =>
      simp only [updateNodeStairsRecurs]
      by_cases hce : (ONode.node v r st a k0 k1 k2 k3 k4 k5 k6 k7).childExists i = true
      · -- child exists: descend into it directly
        rw [if_neg (not_not_intro hce)]
        dsimp only
        have hcne : (ONode.node v r st a k0 k1 k2 k3 k4 k5 k6 k7).child i ≠ .null := by
          simpa [ONode.childExists, bne_iff_ne] using hce
        have hall := fullInv_allNonnull v r st a k0 k1 k2 k3 k4 k5 k6 k7 i hinv hcne
        obtain ⟨hrne, hrinv⟩ := ih ((ONode.node v r st a k0 k1 k2 k3 k4 k5 k6 k7).child i)
          false ck hcne (fullInv_child_of _ i hinv)
        have hn2inv := fullInv_setChild v r st a k0 k1 k2 k3 k4 k5 k6 k7 i _ hrne hrinv hall hinv
        have hn2ne := setChild_ne_null v r st a k0 k1 k2 k3 k4 k5 k6 k7 i
          (updateNodeStairsRecurs cfg ((ONode.node v r st a k0 k1 k2 k3 k4 k5 k6 k7).child i)
            false key rest u ck).node
        split
        · -- pruned
          rcases hn2 : (ONode.node v r st a k0 k1 k2 k3 k4 k5 k6 k7).setChild i
              (updateNodeStairsRecurs cfg ((ONode.node v r st a k0 k1 k2 k3 k4 k5 k6 k7).child i)
                false key rest u ck).node with - | ⟨v2, r2, st2, a2, m0, m1, m2, m3, m4, m5, m6, m7⟩
          · exact absurd hn2 hn2ne
          · obtain ⟨hfi, hne⟩ := pruneNodeApply_fullInv v2 r2 st2 a2 m0 m1 m2 m3 m4 m5 m6 m7
            exact ⟨hne, hfi⟩
        · -- not pruned: refresh the stair aggregate
          obtain ⟨husc, huscn⟩ := updateStairChildren_structure
            ((ONode.node v r st a k0 k1 k2 k3 k4 k5 k6 k7).setChild i
              (updateNodeStairsRecurs cfg ((ONode.node v r st a k0 k1 k2 k3 k4 k5 k6 k7).child i)
                false key rest u ck).node)
          exact ⟨fun hh => hn2ne (huscn.mp hh), husc.trans hn2inv⟩
      · -- child missing
        rw [if_pos hce]
        by_cases hch : (ONode.node v r st a k0 k1 k2 k3 k4 k5 k6 k7).hasChildren = true
        · -- has children but not this one: impossible under fullInv
          exact absurd (fullInv_hasChildren_exists v r st a k0 k1 k2 k3 k4 k5 k6 k7 hinv hch i)
            (by simpa [ONode.childExists, bne_iff_ne] using hce)
        -- expand the pruned node, then descend
        rw [if_pos hch, expandNode_eq]
        dsimp only
        set E : ONode := ONode.node v r 0 a .null .null .null .null .null .null .null .null
          with hEdef
        have hEne : E ≠ .null := by rw [hEdef]; exact fun hh => ONode.noConfusion hh
        have hEinv : fullInv E = true := by rw [hEdef]; rfl
        have hexpinv : fullInv (ONode.node v r st a E E E E E E E E) = true := by
          rw [hEdef]; rfl
        rw [child_uniform v r st a E i]
        obtain ⟨hrne, hrinv⟩ := ih E false ck hEne hEinv
        have hn2inv := fullInv_setChild v r st a E E E E E E E E i
          (updateNodeStairsRecurs cfg E false key rest u ck).node hrne hrinv
          ⟨hEne, hEne, hEne, hEne, hEne, hEne, hEne, hEne⟩ hexpinv
        have hn2ne := setChild_ne_null v r st a E E E E E E E E i
          (updateNodeStairsRecurs cfg E false key rest u ck).node
        split
        · rcases hn2 : (ONode.node v r st a E E E E E E E E).setChild i
              (updateNodeStairsRecurs cfg E false key rest u ck).node
            with - | ⟨v2, r2, st2, a2, m0, m1, m2, m3, m4, m5, m6, m7⟩
          · exact absurd hn2 hn2ne
          · obtain ⟨hfi, hne⟩ := pruneNodeApply_fullInv v2 r2 st2 a2 m0 m1 m2 m3 m4 m5 m6 m7
            exact ⟨hne, hfi⟩
        · obtain ⟨husc, huscn⟩ := updateStairChildren_structure
            ((ONode.node v r st a E E E E E E E E).setChild i
              (updateNodeStairsRecurs cfg E false key rest u ck).node)
          exact ⟨fun hh => hn2ne (huscn.mp hh), husc.trans hn2inv⟩

/-- **C5** (counterexample).  Decoding a THRESHOLDING stream whose
header classifies exactly one child as an occupied leaf (a public
operation) leaves the root with one child out of eight: the 0-or-8
invariant does not survive `readBinaryData`. -/
theorem C5_decode_partial_counterexample :
    (readBinaryData (cfgStd 1 false .thresholding) ⟨.null, []⟩ oneChildBits).map
      (fun p => fullInv p.1.root) = some false ∧
    (readBinaryData (cfgStd 1 false .thresholding) ⟨.null, []⟩ oneChildBits).map
      (fun p => p.1.root.hasChildren) = some true := by
  refine ⟨by decide, by decide⟩

/-- **C5** (amended).  The stairs update engine itself preserves the
0-or-8 invariant: starting from a tree all of whose nodes have zero
or eight children, `updateNodeStairs` returns such a tree (expansion
creates all eight children at once, and pruning removes all eight);
only the binary decode path introduces partial nodes. -/
theorem C5_update_preserves_fullInv (cfg : TreeCfg) (t : TreeState) (key : OcKey) (u : ℚ)
    (h : fullInv t.root = true) :
    fullInv (updateNodeStairs cfg t key u).1.root = true := by
  simp only [updateNodeStairs]
  split_ifs with habort
  · exact h
  · cases ht : t.root with
    | null =>
      exact (updateNodeStairsRecurs_fullInv cfg u key key ONode.default true t.ck
        (fun hh => ONode.noConfusion hh) rfl).2
    | node v r st a k0 k1 k2 k3 k4 k5 k6 k7 =>
      rw [ht] at h
      exact (updateNodeStairsRecurs_fullInv cfg u key key _ false t.ck
        (fun hh => ONode.noConfusion hh) h).2

/-- Witness for C5's amended preservation: a positive update on an
empty (hence trivially invariant) tree yields an invariant tree. -/
theorem C5_update_preserves_witness :
    fullInv ((⟨.null, []⟩ : TreeState).root) = true ∧
    fullInv (updateNodeStairs (cfgStd 2 true .binning) ⟨.null, []⟩ [0, 0] (6 / 25)).1.root = true :=
  ⟨by decide, C5_update_preserves_fullInv (cfgStd 2 true .binning) ⟨.null, []⟩ [0, 0] (6 / 25)
    (by decide)⟩

/-! ### Round-trip support: THRESHOLDING -/

/-- A node that has children is not null. -/
theorem ne_null_of_hasChildren (c : ONode) (h : c.hasChildren = true) : c ≠ .null := by
  cases c with
  | null => exact absurd h (by decide)
  | node v r st a c0 c1 c2 c3 c4 c5 c6 c7 => exact fun hh => ONode.noConfusion hh

/-- Reading three bits undoes writing one THRESHOLDING child group. -/
theorem takeTriple_childBits (cfg : TreeCfg) (c : ONode) (s : List Bool) :
    takeTriple (threshChildBits cfg c ++ s) = some (threshChildTriple cfg c, s) := rfl

/-- Reading eight 3-bit groups undoes writing the 24-bit header. -/
theorem takeTriples8_childBits (cfg : TreeCfg) (c0 c1 c2 c3 c4 c5 c6 c7 : ONode) (s : List Bool) :
    takeTriples 8 (threshChildBits cfg c0 ++ (threshChildBits cfg c1 ++ (threshChildBits cfg c2 ++
      (threshChildBits cfg c3 ++ (threshChildBits cfg c4 ++ (threshChildBits cfg c5 ++
      (threshChildBits cfg c6 ++ (threshChildBits cfg c7 ++ s)))))))) =
      some ([threshChildTriple cfg c0, threshChildTriple cfg c1, threshChildTriple cfg c2,
             threshChildTriple cfg c3, threshChildTriple cfg c4, threshChildTriple cfg c5,
             threshChildTriple cfg c6, threshChildTriple cfg c7], s) := rfl

/-- The header triple of a child that has children. -/
theorem threshChildTriple_hasChildren (cfg : TreeCfg) (c : ONode) (h : c.hasChildren = true) :
    threshChildTriple cfg c = (true, true, false) := by
  cases c with
  | null => exact absurd h (by decide)
  | node v r st a c0 c1 c2 c3 c4 c5 c6 c7 =>
    simp only [threshChildTriple]
    rw [if_pos h]

/-- The header triple of an occupied childless child. -/
theorem threshChildTriple_occupied (cfg : TreeCfg) (c : ONode)
    (hn : c ≠ .null) (h : c.hasChildren = false) (ho : isNodeOccupied cfg c = true) :
    threshChildTriple cfg c = (false, true, roughOver c cfg.roughBinaryThres) := by
  cases c with
  | null => exact absurd rfl hn
  | node v r st a c0 c1 c2 c3 c4 c5 c6 c7 =>
    simp only [threshChildTriple]
    rw [if_neg (by simp [h]), if_pos ho]

/-- The header triple of a free childless child. -/
theorem threshChildTriple_free (cfg : TreeCfg) (c : ONode)
    (hn : c ≠ .null) (h : c.hasChildren = false) (ho : isNodeOccupied cfg c = false) :
    threshChildTriple cfg c = (true, false, false) := by
  cases c with
  | null => exact absurd rfl hn
  | node v r st a c0 c1 c2 c3 c4 c5 c6 c7 =>
    simp only [threshChildTriple]
    rw [if_neg (by simp [h]), if_neg (by simp [ho])]

/-- The sentinel child created for a `(1,1,·)` header group. -/
theorem threshMakeChild_sentinel (cfg : TreeCfg) :
    threshMakeChild cfg (true, true, false)
      = .node (-200) none 0 0 .null .null .null .null .null .null .null .null := rfl

/-- One THRESHOLDING reader second-loop step undoes one writer child:
an absent, free or occupied child passes straight through (its stream
contribution is empty), and a has-children child consumes exactly its
recursive encoding, provided the clamping bounds are not within
`1e-3` of the `-200` sentinel. -/
theorem threshStep_writeKid (cfg : TreeCfg)
    (hmin200 : ¬ |cfg.clampMin + 200| < 1 / 1000) (hmax200 : ¬ |cfg.clampMax + 200| < 1 / 1000)
    (f : Nat) (c : ONode)
    (IH : ∀ s2 : List Bool, c.hasChildren = true →
      readBinThresh cfg f (.node (-200) none 0 0 .null .null .null .null .null .null .null .null)
        (writeBinThresh cfg c ++ s2) = some (threshDecode cfg c, s2)) :
    ∀ s : List Bool,
      threshStep (readBinThresh cfg f) (threshMakeChild cfg (threshChildTriple cfg c))
        ((if c.hasChildren then writeBinThresh cfg c else []) ++ s)
        = some (threshDecodeKid cfg c, s) := by
  intro s
  have IH := IH s
  by_cases hch : c.hasChildren = true
  · rw [if_pos hch, threshChildTriple_hasChildren cfg c hch, threshMakeChild_sentinel]
    simp only [threshStep]
    rw [if_pos ⟨fun hh => ONode.noConfusion hh, by norm_num [ONode.value]⟩]
    rw [IH hch]
    simp only [threshDecodeKid, threshFix]
    rw [if_pos hch]
  · rw [Bool.not_eq_true] at hch
    rw [if_neg (show ¬(c.hasChildren = true) by simp [hch]), List.nil_append]
    have hkid : threshDecodeKid cfg c = threshMakeChild cfg (threshChildTriple cfg c) := by
      simp only [threshDecodeKid]
      rw [if_neg (show ¬(c.hasChildren = true) by simp [hch])]
    rw [hkid]
    cases hc0 : c with
    | null =>
      simp [threshChildTriple, threshMakeChild, threshStep]
    | node v r st a c0 c1 c2 c3 c4 c5 c6 c7 =>
      rw [← hc0]
      have hcn : c ≠ .null := by rw [hc0]; exact fun hh => ONode.noConfusion hh
      by_cases ho : isNodeOccupied cfg c = true
      · rw [threshChildTriple_occupied cfg c hcn hch ho]
        have hmk : threshMakeChild cfg (false, true, roughOver c cfg.roughBinaryThres)
            = .node cfg.clampMax
                (some (if roughOver c cfg.roughBinaryThres then cfg.roughBinaryThres else 0)) 0 0
                .null .null .null .null .null .null .null .null := rfl
        rw [hmk]
        simp only [threshStep]
        rw [if_neg (by
          rintro ⟨-, habs⟩
          exact hmax200 (by simpa [ONode.value] using habs))]
      · rw [Bool.not_eq_true] at ho
        rw [threshChildTriple_free cfg c hcn hch ho]
        have hmk : threshMakeChild cfg (true, false, false)
            = .node cfg.clampMin none 0 0 .null .null .null .null .null .null .null .null := rfl
        rw [hmk]
        simp only [threshStep]
        rw [if_neg (by
          rintro ⟨-, habs⟩
          exact hmin200 (by simpa [ONode.value] using habs))]

/-- The THRESHOLDING decode normal form, one node deep. -/
theorem threshDecode_node (cfg : TreeCfg) (v : ℚ) (r : Option ℚ) (st : ℚ) (a : ℤ)
    (k0 k1 k2 k3 k4 k5 k6 k7 : ONode) :
    threshDecode cfg (.node v r st a k0 k1 k2 k3 k4 k5 k6 k7) =
      .node cfg.clampMax none 0 0
        (threshDecodeKid cfg k0) (threshDecodeKid cfg k1) (threshDecodeKid cfg k2)
        (threshDecodeKid cfg k3) (threshDecodeKid cfg k4) (threshDecodeKid cfg k5)
        (threshDecodeKid cfg k6) (threshDecodeKid cfg k7) := rfl

/-- Reading back the THRESHOLDING encoding of a non-null subtree
consumes exactly its bytes and produces its decode normal form, for
any fuel at least the subtree's node count. -/
theorem thresh_roundtrip_nf (cfg : TreeCfg)
    (hmin200 : ¬ |cfg.clampMin + 200| < 1 / 1000) (hmax200 : ¬ |cfg.clampMax + 200| < 1 / 1000)
    (n : ONode) :
    ∀ (fuel : Nat) (bv : ℚ) (rest : List Bool), n ≠ .null → n.size ≤ fuel →
      readBinThresh cfg fuel (.node bv none 0 0 .null .null .null .null .null .null .null .null)
        (writeBinThresh cfg n ++ rest)
        = some (threshDecode cfg n, rest) := by
  induction n with
  | null => exact fun fuel bv rest hn _ => absurd rfl hn
  | node v r st a k0 k1 k2 k3 k4 k5 k6 k7 ih0 ih1 ih2 ih3 ih4 ih5 ih6 ih7 =>
    intro fuel bv rest hn hsz
    obtain ⟨f, rfl⟩ : ∃ f, fuel = f + 1 := by
      cases fuel with
      | zero => exfalso; simp only [ONode.size] at hsz; omega
      | succ f => exact ⟨f, rfl⟩
    simp only [ONode.size] at hsz
    have hs0 : k0.size ≤ f := by omega
    have hs1 : k1.size ≤ f := by omega
    have hs2 : k2.size ≤ f := by omega
    have hs3 : k3.size ≤ f := by omega
    have hs4 : k4.size ≤ f := by omega
    have hs5 : k5.size ≤ f := by omega
    have hs6 : k6.size ≤ f := by omega
    have hs7 : k7.size ≤ f := by omega
    simp only [writeBinThresh, List.append_assoc]
    rw [readBinThresh, takeTriples8_childBits]
    simp only [List.map_cons, List.map_nil]
    simp only [stepKids,
      threshStep_writeKid cfg hmin200 hmax200 f k0
        (fun s2 hch => ih0 f (-200) s2 (ne_null_of_hasChildren k0 hch) hs0),
      threshStep_writeKid cfg hmin200 hmax200 f k1
        (fun s2 hch => ih1 f (-200) s2 (ne_null_of_hasChildren k1 hch) hs1),
      threshStep_writeKid cfg hmin200 hmax200 f k2
        (fun s2 hch => ih2 f (-200) s2 (ne_null_of_hasChildren k2 hch) hs2),
      threshStep_writeKid cfg hmin200 hmax200 f k3
        (fun s2 hch => ih3 f (-200) s2 (ne_null_of_hasChildren k3 hch) hs3),
      threshStep_writeKid cfg hmin200 hmax200 f k4
        (fun s2 hch => ih4 f (-200) s2 (ne_null_of_hasChildren k4 hch) hs4),
      threshStep_writeKid cfg hmin200 hmax200 f k5
        (fun s2 hch => ih5 f (-200) s2 (ne_null_of_hasChildren k5 hch) hs5),
      threshStep_writeKid cfg hmin200 hmax200 f k6
        (fun s2 hch => ih6 f (-200) s2 (ne_null_of_hasChildren k6 hch) hs6),
      threshStep_writeKid cfg hmin200 hmax200 f k7
        (fun s2 hch => ih7 f (-200) s2 (ne_null_of_hasChildren k7 hch) hs7)]
    rfl

/-- Reading exactly the length of a prefix returns that prefix. -/
theorem takeBits_exact (l r : List Bool) : takeBits l.length (l ++ r) = some (l, r) := by
  rw [takeBits, if_pos (by simp)]
  rw [List.take_left, List.drop_left]

/-- `natBitsLSB` produces exactly the requested number of bits. -/
theorem natBitsLSB_length (nb : Nat) : ∀ u : Nat, (natBitsLSB nb u).length = nb := by
  induction nb with
  | zero => intro u; rfl
  | succ n ih => intro u; simp [natBitsLSB, ih]

/-- The roughness-bit field of a BINNING child group has exactly
`log2(B)` bits. -/
theorem binPackRough_length (cfg : TreeCfg) (c : ONode) :
    (binChildPack cfg c).2.2.1.length = numRoughBits cfg := by
  cases c with
  | null => simp [binChildPack]
  | node v r st a c0 c1 c2 c3 c4 c5 c6 c7 =>
    simp only [binChildPack]
    split_ifs
    · simp
    · cases r <;> simp [ONode.rough, natBitsLSB_length]
    · simp

/-- A BINNING child group is `2 + log2(B) + 1` bits long. -/
theorem binChildBits_length (cfg : TreeCfg) (c : ONode) :
    (binChildBits cfg c).length = numRoughBits cfg + 3 := by
  simp [binChildBits, binPackRough_length]

/-- Reading one BINNING child group from an explicitly laid out
stream fragment. -/
theorem takePack_cons (nb : Nat) (b1 b2 b3 : Bool) (rb : List Bool)
    (hrb : rb.length = nb) (s : List Bool) :
    takePack nb (b1 :: b2 :: (rb ++ b3 :: s)) = some ((b1, b2, rb, b3), s) := by
  subst hrb
  have h := takeBits_exact rb (b3 :: s)
  simp [takePack, takeBit, h]

/-- Reading one BINNING child group undoes writing it. -/
theorem takePack_childBits (cfg : TreeCfg) (c : ONode) (s : List Bool) :
    takePack (numRoughBits cfg) (binChildBits cfg c ++ s) = some (binChildPack cfg c, s) := by
  have h : binChildBits cfg c ++ s
      = (binChildPack cfg c).1 :: (binChildPack cfg c).2.1 ::
        ((binChildPack cfg c).2.2.1 ++ (binChildPack cfg c).2.2.2 :: s) := by
    simp [binChildBits, List.append_assoc]
  rw [h, takePack_cons _ _ _ _ _ (binPackRough_length cfg c) s]

/-- One step of the eight-group BINNING header read. -/
theorem takePacks_succ (cfg : TreeCfg) (n : Nat) (c : ONode) (s s2 : List Bool)
    (ts : List (Bool × Bool × List Bool × Bool))
    (h : takePacks (numRoughBits cfg) n s = some (ts, s2)) :
    takePacks (numRoughBits cfg) (n + 1) (binChildBits cfg c ++ s)
      = some (binChildPack cfg c :: ts, s2) := by
  simp only [takePacks, takePack_childBits, h]

/-- Reading eight BINNING child groups undoes writing the header. -/
theorem takePacks8_childBits (cfg : TreeCfg) (c0 c1 c2 c3 c4 c5 c6 c7 : ONode) (s : List Bool) :
    takePacks (numRoughBits cfg) 8 (binChildBits cfg c0 ++ (binChildBits cfg c1 ++
      (binChildBits cfg c2 ++ (binChildBits cfg c3 ++ (binChildBits cfg c4 ++
      (binChildBits cfg c5 ++ (binChildBits cfg c6 ++ (binChildBits cfg c7 ++ s)))))))) =
      some ([binChildPack cfg c0, binChildPack cfg c1, binChildPack cfg c2,
             binChildPack cfg c3, binChildPack cfg c4, binChildPack cfg c5,
             binChildPack cfg c6, binChildPack cfg c7], s) := by
  have h0 : takePacks (numRoughBits cfg) 0 s = some ([], s) := rfl
  have h1 := takePacks_succ cfg 0 c7 _ _ _ h0
  have h2 := takePacks_succ cfg 1 c6 _ _ _ h1
  have h3 := takePacks_succ cfg 2 c5 _ _ _ h2
  have h4 := takePacks_succ cfg 3 c4 _ _ _ h3
  have h5 := takePacks_succ cfg 4 c3 _ _ _ h4
  have h6 := takePacks_succ cfg 5 c2 _ _ _ h5
  have h7 := takePacks_succ cfg 6 c1 _ _ _ h6
  exact takePacks_succ cfg 7 c0 _ _ _ h7

/-- The header group of a child that has children. -/
theorem binChildPack_hasChildren (cfg : TreeCfg) (c : ONode) (h : c.hasChildren = true) :
    binChildPack cfg c = (true, true, List.replicate (numRoughBits cfg) false, false) := by
  cases c with
  | null => exact absurd h (by decide)
  | node v r st a c0 c1 c2 c3 c4 c5 c6 c7 =>
    simp only [binChildPack]
    rw [if_pos h]

/-- The header group of an occupied childless child. -/
theorem binChildPack_occupied (cfg : TreeCfg) (c : ONode)
    (hn : c ≠ .null) (h : c.hasChildren = false) (ho : isNodeOccupied cfg c = true) :
    binChildPack cfg c = (false, true,
      (match c.rough with
       | none => List.replicate (numRoughBits cfg) false
       | some r => natBitsLSB (numRoughBits cfg) ((binRoughIdx cfg r % (2 : ℤ) ^ 64).toNat)),
      isNodeStairs cfg c) := by
  cases c with
  | null => exact absurd rfl hn
  | node v r st a c0 c1 c2 c3 c4 c5 c6 c7 =>
    simp only [binChildPack]
    rw [if_neg (by simp [h]), if_pos ho]

/-- The header group of a free childless child. -/
theorem binChildPack_free (cfg : TreeCfg) (c : ONode)
    (hn : c ≠ .null) (h : c.hasChildren = false) (ho : isNodeOccupied cfg c = false) :
    binChildPack cfg c = (true, false, List.replicate (numRoughBits cfg) false, false) := by
  cases c with
  | null => exact absurd rfl hn
  | node v r st a c0 c1 c2 c3 c4 c5 c6 c7 =>
    simp only [binChildPack]
    rw [if_neg (by simp [h]), if_neg (by simp [ho])]

/-- The sentinel child created for a `(1,1,·,·)` header group. -/
theorem binMakeChild_sentinel (cfg : TreeCfg) (rb : List Bool) :
    binMakeChild cfg (true, true, rb, false)
      = .node (-200) none 0 0 .null .null .null .null .null .null .null .null := rfl

/-- The leaf created for a `(0,1,·,·)` (occupied) header group. -/
theorem binMakeChild_occupied (cfg : TreeCfg) (rb : List Bool) (stb : Bool) :
    binMakeChild cfg (false, true, rb, stb)
      = .node cfg.clampMax (some ((bitsValLSB rb : ℚ) * binsizeQ cfg))
          (if stb then 1 else 0) 0 .null .null .null .null .null .null .null .null := rfl

/-- The leaf created for a `(1,0,·,·)` (free) header group. -/
theorem binMakeChild_free (cfg : TreeCfg) (rb : List Bool) (stb : Bool) :
    binMakeChild cfg (true, false, rb, stb)
      = .node cfg.clampMin none 0 0 .null .null .null .null .null .null .null .null := rfl

/-- One BINNING reader second-loop step undoes one writer child,
provided the clamping bounds are not within `1e-3` of `-200`. -/
theorem binStep_writeKid (cfg : TreeCfg)
    (hmin200 : ¬ |cfg.clampMin + 200| < 1 / 1000) (hmax200 : ¬ |cfg.clampMax + 200| < 1 / 1000)
    (f : Nat) (c : ONode)
    (IH : ∀ s2 : List Bool, c.hasChildren = true →
      readBinBinning cfg f (.node (-200) none 0 0 .null .null .null .null .null .null .null .null)
        (writeBinBinning cfg c ++ s2) = some (binDecode cfg c, s2)) :
    ∀ s : List Bool,
      binStep (readBinBinning cfg f) (binMakeChild cfg (binChildPack cfg c))
        ((if c.hasChildren then writeBinBinning cfg c else []) ++ s)
        = some (binDecodeKid cfg c, s) := by
  intro s
  have IH := IH s
  by_cases hch : c.hasChildren = true
  · rw [if_pos hch, binChildPack_hasChildren cfg c hch, binMakeChild_sentinel]
    simp only [binStep]
    rw [if_pos ⟨fun hh => ONode.noConfusion hh, by norm_num [ONode.value]⟩]
    rw [IH hch]
    simp only [binDecodeKid, binFix]
    rw [if_pos hch]
  · rw [Bool.not_eq_true] at hch
    rw [if_neg (show ¬(c.hasChildren = true) by simp [hch]), List.nil_append]
    have hkid : binDecodeKid cfg c = binMakeChild cfg (binChildPack cfg c) := by
      simp only [binDecodeKid]
      rw [if_neg (show ¬(c.hasChildren = true) by simp [hch])]
    rw [hkid]
    cases hc0 : c with
    | null =>
      simp [binChildPack, binMakeChild, binStep]
    | node v r st a c0 c1 c2 c3 c4 c5 c6 c7 =>
      rw [← hc0]
      have hcn : c ≠ .null := by rw [hc0]; exact fun hh => ONode.noConfusion hh
      by_cases ho : isNodeOccupied cfg c = true
      · rw [binChildPack_occupied cfg c hcn hch ho, binMakeChild_occupied]
        simp only [binStep]
        rw [if_neg (by
          rintro ⟨-, habs⟩
          exact hmax200 (by simpa [ONode.value] using habs))]
      · rw [Bool.not_eq_true] at ho
        rw [binChildPack_free cfg c hcn hch ho, binMakeChild_free]
        simp only [binStep]
        rw [if_neg (by
          rintro ⟨-, habs⟩
          exact hmin200 (by simpa [ONode.value] using habs))]

/-- The BINNING decode normal form, one node deep. -/
theorem binDecode_node (cfg : TreeCfg) (v : ℚ) (r : Option ℚ) (st : ℚ) (a : ℤ)
    (k0 k1 k2 k3 k4 k5 k6 k7 : ONode) :
    binDecode cfg (.node v r st a k0 k1 k2 k3 k4 k5 k6 k7) =
      .node cfg.clampMax none 0 0
        (binDecodeKid cfg k0) (binDecodeKid cfg k1) (binDecodeKid cfg k2)
        (binDecodeKid cfg k3) (binDecodeKid cfg k4) (binDecodeKid cfg k5)
        (binDecodeKid cfg k6) (binDecodeKid cfg k7) := rfl

/-- Reading back the BINNING encoding of a non-null subtree consumes
exactly its bytes and produces its decode normal form, for any fuel at
least the subtree's node count. -/
theorem bin_roundtrip_nf (cfg : TreeCfg)
    (hmin200 : ¬ |cfg.clampMin + 200| < 1 / 1000) (hmax200 : ¬ |cfg.clampMax + 200| < 1 / 1000)
    (n : ONode) :
    ∀ (fuel : Nat) (bv : ℚ) (rest : List Bool), n ≠ .null → n.size ≤ fuel →
      readBinBinning cfg fuel (.node bv none 0 0 .null .null .null .null .null .null .null .null)
        (writeBinBinning cfg n ++ rest)
        = some (binDecode cfg n, rest) := by
  induction n with
  | null => exact fun fuel bv rest hn _ => absurd rfl hn
  | node v r st a k0 k1 k2 k3 k4 k5 k6 k7 ih0 ih1 ih2 ih3 ih4 ih5 ih6 ih7 =>
    intro fuel bv rest hn hsz
    obtain ⟨f, rfl⟩ : ∃ f, fuel = f + 1 := by
      cases fuel with
      | zero => exfalso; simp only [ONode.size] at hsz; omega
      | succ f => exact ⟨f, rfl⟩
    simp only [ONode.size] at hsz
    have hs0 : k0.size ≤ f := by omega
    have hs1 : k1.size ≤ f := by omega
    have hs2 : k2.size ≤ f := by omega
    have hs3 : k3.size ≤ f := by omega
    have hs4 : k4.size ≤ f := by omega
    have hs5 : k5.size ≤ f := by omega
    have hs6 : k6.size ≤ f := by omega
    have hs7 : k7.size ≤ f := by omega
    simp only [writeBinBinning, List.append_assoc]
    rw [readBinBinning, takePacks8_childBits]
    simp only [List.map_cons, List.map_nil]
    simp only [stepKids,
      binStep_writeKid cfg hmin200 hmax200 f k0
        (fun s2 hch => ih0 f (-200) s2 (ne_null_of_hasChildren k0 hch) hs0),
      binStep_writeKid cfg hmin200 hmax200 f k1
        (fun s2 hch => ih1 f (-200) s2 (ne_null_of_hasChildren k1 hch) hs1),
      binStep_writeKid cfg hmin200 hmax200 f k2
        (fun s2 hch => ih2 f (-200) s2 (ne_null_of_hasChildren k2 hch) hs2),
      binStep_writeKid cfg hmin200 hmax200 f k3
        (fun s2 hch => ih3 f (-200) s2 (ne_null_of_hasChildren k3 hch) hs3),
      binStep_writeKid cfg hmin200 hmax200 f k4
        (fun s2 hch => ih4 f (-200) s2 (ne_null_of_hasChildren k4 hch) hs4),
      binStep_writeKid cfg hmin200 hmax200 f k5
        (fun s2 hch => ih5 f (-200) s2 (ne_null_of_hasChildren k5 hch) hs5),
      binStep_writeKid cfg hmin200 hmax200 f k6
        (fun s2 hch => ih6 f (-200) s2 (ne_null_of_hasChildren k6 hch) hs6),
      binStep_writeKid cfg hmin200 hmax200 f k7
        (fun s2 hch => ih7 f (-200) s2 (ne_null_of_hasChildren k7 hch) hs7)]
    rfl

/-- Mapping the children of a node through a null-preserving decode
keeps `hasChildren`. -/
theorem hasChildren_decodeMap (dk : ONode → ONode)
    (hdk : ∀ c, c ≠ .null → dk c ≠ .null)
    (v w : ℚ) (r q : Option ℚ) (st su : ℚ) (a b : ℤ) (k0 k1 k2 k3 k4 k5 k6 k7 : ONode)
    (h : (ONode.node v r st a k0 k1 k2 k3 k4 k5 k6 k7).hasChildren = true) :
    (ONode.node w q su b (dk k0) (dk k1) (dk k2) (dk k3)
        (dk k4) (dk k5) (dk k6) (dk k7)).hasChildren = true := by
  simp only [ONode.hasChildren, ONode.childrenList, List.any_cons, List.any_nil,
    Bool.or_eq_true, Bool.or_false, bne_iff_ne, ne_eq] at h ⊢
  rcases h with h | h | h | h | h | h | h | h
  · exact Or.inl (hdk k0 h)
  · exact Or.inr (Or.inl (hdk k1 h))
  · exact Or.inr (Or.inr (Or.inl (hdk k2 h)))
  · exact Or.inr (Or.inr (Or.inr (Or.inl (hdk k3 h))))
  · exact Or.inr (Or.inr (Or.inr (Or.inr (Or.inl (hdk k4 h)))))
  · exact Or.inr (Or.inr (Or.inr (Or.inr (Or.inr (Or.inl (hdk k5 h))))))
  · exact Or.inr (Or.inr (Or.inr (Or.inr (Or.inr (Or.inr (Or.inl (hdk k6 h)))))))
  · exact Or.inr (Or.inr (Or.inr (Or.inr (Or.inr (Or.inr (Or.inr (hdk k7 h)))))))

/-- Decoding a non-null child never yields a null child. -/
theorem threshDecodeKid_ne_null (cfg : TreeCfg) (c : ONode) (hc : c ≠ .null) :
    threshDecodeKid cfg c ≠ .null := by
  cases c with
  | null => exact absurd rfl hc
  | node v r st a c0 c1 c2 c3 c4 c5 c6 c7 =>
    rw [threshDecodeKid]
    by_cases hch : (ONode.node v r st a c0 c1 c2 c3 c4 c5 c6 c7).hasChildren = true
    · rw [if_pos hch, threshDecode_node]
      exact fun hh => ONode.noConfusion hh
    · rw [if_neg hch]
      by_cases ho : isNodeOccupied cfg (ONode.node v r st a c0 c1 c2 c3 c4 c5 c6 c7) = true
      · rw [threshChildTriple_occupied cfg _ (fun hh => ONode.noConfusion hh)
            (by simpa using hch) ho]
        exact fun hh => ONode.noConfusion hh
      · rw [threshChildTriple_free cfg _ (fun hh => ONode.noConfusion hh)
            (by simpa using hch) (by simpa using ho)]
        exact fun hh => ONode.noConfusion hh

/-- BINNING: decoding a non-null child never yields a null child. -/
theorem binDecodeKid_ne_null (cfg : TreeCfg) (c : ONode) (hc : c ≠ .null) :
    binDecodeKid cfg c ≠ .null := by
  cases c with
  | null => exact absurd rfl hc
  | node v r st a c0 c1 c2 c3 c4 c5 c6 c7 =>
    rw [binDecodeKid]
    by_cases hch : (ONode.node v r st a c0 c1 c2 c3 c4 c5 c6 c7).hasChildren = true
    · rw [if_pos hch, binDecode_node]
      exact fun hh => ONode.noConfusion hh
    · rw [if_neg hch]
      by_cases ho : isNodeOccupied cfg (ONode.node v r st a c0 c1 c2 c3 c4 c5 c6 c7) = true
      · rw [binChildPack_occupied cfg _ (fun hh => ONode.noConfusion hh)
            (by simpa using hch) ho]
        exact fun hh => ONode.noConfusion hh
      · rw [binChildPack_free cfg _ (fun hh => ONode.noConfusion hh)
            (by simpa using hch) (by simpa using ho)]
        exact fun hh => ONode.noConfusion hh

/-- The spec's per-child THRESHOLDING round-trip agreement holds
between any child and its decode. -/
theorem threshRT_kid (cfg : TreeCfg)
    (hoccMax : cfg.occThres ≤ cfg.clampMax) (hoccMin : ¬ cfg.occThres ≤ cfg.clampMin)
    (c : ONode) :
    threshRT cfg c (threshDecodeKid cfg c) = true := by
  induction c with
  | null => rfl
  | node v r st a k0 k1 k2 k3 k4 k5 k6 k7 ih0 ih1 ih2 ih3 ih4 ih5 ih6 ih7 =>
    by_cases hch : (ONode.node v r st a k0 k1 k2 k3 k4 k5 k6 k7).hasChildren = true
    · rw [threshDecodeKid, if_pos hch, threshDecode_node]
      simp only [threshFix, ONode.setValue, threshRT]
      rw [if_pos hch]
      simp only [Bool.and_eq_true]
      exact ⟨hasChildren_decodeMap _ (threshDecodeKid_ne_null cfg) v _ r none st 0 a 0
          k0 k1 k2 k3 k4 k5 k6 k7 hch,
        ⟨⟨⟨⟨⟨⟨⟨ih0, ih1⟩, ih2⟩, ih3⟩, ih4⟩, ih5⟩, ih6⟩, ih7⟩⟩
    · have hch' : (ONode.node v r st a k0 k1 k2 k3 k4 k5 k6 k7).hasChildren = false := by
        simpa using hch
      rw [threshDecodeKid, if_neg hch]
      by_cases ho : isNodeOccupied cfg (ONode.node v r st a k0 k1 k2 k3 k4 k5 k6 k7) = true
      · rw [threshChildTriple_occupied cfg _ (fun hh => ONode.noConfusion hh) hch' ho]
        have hmk : threshMakeChild cfg
            (false, true, roughOver (ONode.node v r st a k0 k1 k2 k3 k4 k5 k6 k7)
              cfg.roughBinaryThres)
            = .node cfg.clampMax
                (some (if roughOver (ONode.node v r st a k0 k1 k2 k3 k4 k5 k6 k7)
                    cfg.roughBinaryThres then cfg.roughBinaryThres else 0)) 0 0
                .null .null .null .null .null .null .null .null := rfl
        rw [hmk]
        simp only [threshRT]
        rw [if_neg hch]
        simp only [Bool.and_eq_true]
        refine ⟨⟨rfl, ?_⟩, ?_⟩
        · rw [ho]
          simp [isNodeOccupied, ONode.value, ge_iff_le, hoccMax]
        · rw [if_pos ho]
          simp
      · have ho' : isNodeOccupied cfg (ONode.node v r st a k0 k1 k2 k3 k4 k5 k6 k7) = false := by
          simpa using ho
        rw [threshChildTriple_free cfg _ (fun hh => ONode.noConfusion hh) hch' ho']
        have hmk : threshMakeChild cfg (true, false, false)
            = .node cfg.clampMin none 0 0 .null .null .null .null .null .null .null .null := rfl
        rw [hmk]
        simp only [threshRT]
        rw [if_neg hch]
        simp only [Bool.and_eq_true]
        refine ⟨⟨rfl, ?_⟩, ?_⟩
        · rw [ho']
          simp [isNodeOccupied, ONode.value, ge_iff_le, hoccMin]
        · rw [if_neg (by simp [ho'])]

/-- The spec's THRESHOLDING round-trip agreement between a tree with
children and its decode normal form. -/
theorem threshRT_decode (cfg : TreeCfg)
    (hoccMax : cfg.occThres ≤ cfg.clampMax) (hoccMin : ¬ cfg.occThres ≤ cfg.clampMin)
    (n : ONode) (hch : n.hasChildren = true) :
    threshRT cfg n (threshDecode cfg n) = true := by
  cases n with
  | null => exact absurd hch (by decide)
  | node v r st a k0 k1 k2 k3 k4 k5 k6 k7 =>
    rw [threshDecode_node]
    simp only [threshRT]
    rw [if_pos hch]
    simp only [Bool.and_eq_true]
    exact ⟨hasChildren_decodeMap _ (threshDecodeKid_ne_null cfg) v _ r none st 0 a 0
        k0 k1 k2 k3 k4 k5 k6 k7 hch,
      ⟨⟨⟨⟨⟨⟨⟨threshRT_kid cfg hoccMax hoccMin k0, threshRT_kid cfg hoccMax hoccMin k1⟩,
      threshRT_kid cfg hoccMax hoccMin k2⟩, threshRT_kid cfg hoccMax hoccMin k3⟩,
      threshRT_kid cfg hoccMax hoccMin k4⟩, threshRT_kid cfg hoccMax hoccMin k5⟩,
      threshRT_kid cfg hoccMax hoccMin k6⟩, threshRT_kid cfg hoccMax hoccMin k7⟩⟩

/-- `bitsValLSB` on a cons, in recurrence form. -/
theorem bitsValLSB_cons (b : Bool) (l : List Bool) :
    bitsValLSB (b :: l) = (if b then 1 else 0) + 2 * bitsValLSB l := rfl

/-- Round-tripping a value through LSB-first bits truncates it to the
low `nb` bits. -/
theorem bitsValLSB_natBitsLSB (nb : Nat) : ∀ u : Nat,
    bitsValLSB (natBitsLSB nb u) = u % 2 ^ nb := by
  induction nb with
  | zero => intro u; simp [natBitsLSB, bitsValLSB, Nat.mod_one]
  | succ n ih =>
    intro u
    rw [natBitsLSB, bitsValLSB_cons, ih]
    have h : u % (2 * 2 ^ n) = u % 2 + 2 * (u / 2 % 2 ^ n) := Nat.mod_mul ..
    rw [pow_succ', h]
    have h2 : (if decide (u % 2 = 1) = true then 1 else 0) = u % 2 := by
      rcases Nat.mod_two_eq_zero_or_one u with h2 | h2 <;> simp [h2]
    rw [h2]

/-- `binsize` is positive when there are at least two bins. -/
theorem binsizeQ_pos (cfg : TreeCfg) (hB2 : 2 ≤ cfg.numBinaryBins) : 0 < binsizeQ cfg := by
  have h : (0:ℚ) < (cfg.numBinaryBins : ℚ) - 1 := by
    have : (2:ℚ) ≤ (cfg.numBinaryBins : ℚ) := by exact_mod_cast hB2
    linarith
  rw [binsizeQ, show (1 - 0 : ℚ) = 1 by norm_num]
  exact div_pos one_pos h

/-- Decoding the stored roughness-bin bits of a value in `[0, 1]`
recovers `binidx * binsize` (the 64-bit pass-through and the
`log2(B)`-bit truncation are lossless when `B = 2^(log2 B) ≤ 2^64`),
and the result is within one bin of the original and exactly equal
when the original is bin-aligned. -/
theorem binRough_decode_val (cfg : TreeCfg)
    (hB2 : 2 ≤ cfg.numBinaryBins)
    (hBpow : cfg.numBinaryBins = 2 ^ numRoughBits cfg)
    (hnb : numRoughBits cfg ≤ 64)
    (x : ℚ) (hx0 : 0 ≤ x) (hx1 : x ≤ 1) :
    ((bitsValLSB (natBitsLSB (numRoughBits cfg)
        ((binRoughIdx cfg x % (2:ℤ) ^ 64).toNat)) : ℚ) * binsizeQ cfg
      = (binRoughIdx cfg x : ℚ) * binsizeQ cfg) ∧
    |x - (binRoughIdx cfg x : ℚ) * binsizeQ cfg| < binsizeQ cfg ∧
    (x = (⌊x / binsizeQ cfg⌋ : ℚ) * binsizeQ cfg →
      (binRoughIdx cfg x : ℚ) * binsizeQ cfg = x) := by
  have hbs : 0 < binsizeQ cfg := binsizeQ_pos cfg hB2
  have hB1 : (0:ℚ) < (cfg.numBinaryBins : ℚ) - 1 := by
    have : (2:ℚ) ≤ (cfg.numBinaryBins : ℚ) := by exact_mod_cast hB2
    linarith
  have hidx0 : 0 ≤ binRoughIdx cfg x := by
    rw [binRoughIdx]
    exact Int.floor_nonneg.mpr (div_nonneg hx0 hbs.le)
  have hdiv : x / binsizeQ cfg = x * ((cfg.numBinaryBins : ℚ) - 1) := by
    rw [binsizeQ, show (1 - 0 : ℚ) = 1 by norm_num]
    field_simp
  have hidxlt : binRoughIdx cfg x < (cfg.numBinaryBins : ℤ) := by
    rw [binRoughIdx]
    have h1 : x / binsizeQ cfg ≤ (cfg.numBinaryBins : ℚ) - 1 := by
      rw [hdiv]
      exact mul_le_of_le_one_left hB1.le hx1
    have h2 : ⌊x / binsizeQ cfg⌋ ≤ ⌊((cfg.numBinaryBins : ℚ) - 1)⌋ := Int.floor_le_floor h1
    have h3 : (⌊((cfg.numBinaryBins : ℚ) - 1)⌋ : ℤ) = (cfg.numBinaryBins : ℤ) - 1 := by
      rw [show ((cfg.numBinaryBins : ℚ) - 1) = (((cfg.numBinaryBins : ℤ) - 1 : ℤ) : ℚ) by
        push_cast; ring]
      exact Int.floor_intCast _
    omega
  have hlt64 : binRoughIdx cfg x < (2:ℤ) ^ 64 := by
    have hBle : (cfg.numBinaryBins : ℤ) ≤ (2:ℤ) ^ 64 := by
      have h4 : cfg.numBinaryBins ≤ 2 ^ 64 := by
        rw [hBpow]
        exact Nat.pow_le_pow_right (by norm_num) hnb
      exact_mod_cast h4
    omega
  have hmod : binRoughIdx cfg x % (2:ℤ) ^ 64 = binRoughIdx cfg x :=
    Int.emod_eq_of_lt hidx0 hlt64
  have hult : (binRoughIdx cfg x).toNat < 2 ^ numRoughBits cfg := by
    have h5 : binRoughIdx cfg x < ((2 ^ numRoughBits cfg : ℕ) : ℤ) := by
      rw [← hBpow]
      exact_mod_cast hidxlt
    omega
  have hval : bitsValLSB (natBitsLSB (numRoughBits cfg)
      ((binRoughIdx cfg x % (2:ℤ) ^ 64).toNat)) = (binRoughIdx cfg x).toNat := by
    rw [hmod, bitsValLSB_natBitsLSB, Nat.mod_eq_of_lt hult]
  have hcast : (((binRoughIdx cfg x).toNat : ℚ)) = ((binRoughIdx cfg x : ℤ) : ℚ) := by
    exact_mod_cast congrArg (fun z : ℤ => (z : ℚ)) (Int.toNat_of_nonneg hidx0)
  have hfl : ((binRoughIdx cfg x : ℤ) : ℚ) ≤ x / binsizeQ cfg := by
    rw [binRoughIdx]; exact Int.floor_le _
  have hfu : x / binsizeQ cfg < ((binRoughIdx cfg x : ℤ) : ℚ) + 1 := by
    rw [binRoughIdx]; exact Int.lt_floor_add_one _
  have h1 : (binRoughIdx cfg x : ℚ) * binsizeQ cfg ≤ x := by
    calc (binRoughIdx cfg x : ℚ) * binsizeQ cfg
        ≤ (x / binsizeQ cfg) * binsizeQ cfg := mul_le_mul_of_nonneg_right hfl hbs.le
      _ = x := div_mul_cancel₀ x hbs.ne'
  have h2 : x < ((binRoughIdx cfg x : ℚ) + 1) * binsizeQ cfg := (div_lt_iff₀ hbs).mp hfu
  rw [add_mul, one_mul] at h2
  refine ⟨by rw [hval, hcast], ?_, ?_⟩
  · rw [abs_of_nonneg (by linarith)]
    linarith
  · intro hal
    rw [binRoughIdx]
    exact hal.symm

/-- The spec's per-child BINNING round-trip agreement holds between
any child with in-range roughness values and its decode. -/
theorem binRT_kid (cfg : TreeCfg)
    (hoccMax : cfg.occThres ≤ cfg.clampMax) (hoccMin : ¬ cfg.occThres ≤ cfg.clampMin)
    (hB2 : 2 ≤ cfg.numBinaryBins) (hBpow : cfg.numBinaryBins = 2 ^ numRoughBits cfg)
    (hnb : numRoughBits cfg ≤ 64) (c : ONode) :
    roughInRange c = true → binRT cfg c (binDecodeKid cfg c) = true := by
  induction c with
  | null => intro _; rfl
  | node v r st a k0 k1 k2 k3 k4 k5 k6 k7 ih0 ih1 ih2 ih3 ih4 ih5 ih6 ih7 =>
    intro hr
    simp only [roughInRange, Bool.and_eq_true] at hr
    obtain ⟨hrown, ⟨⟨⟨⟨⟨⟨⟨hr0, hr1⟩, hr2⟩, hr3⟩, hr4⟩, hr5⟩, hr6⟩, hr7⟩⟩ := hr
    by_cases hch : (ONode.node v r st a k0 k1 k2 k3 k4 k5 k6 k7).hasChildren = true
    · rw [binDecodeKid, if_pos hch, binDecode_node]
      simp only [binFix, ONode.setValue, ONode.setStair, binRT]
      rw [if_pos hch]
      simp only [Bool.and_eq_true]
      exact ⟨hasChildren_decodeMap _ (binDecodeKid_ne_null cfg) v _ r none st _ a 0
          k0 k1 k2 k3 k4 k5 k6 k7 hch,
        ⟨⟨⟨⟨⟨⟨⟨ih0 hr0, ih1 hr1⟩, ih2 hr2⟩, ih3 hr3⟩, ih4 hr4⟩, ih5 hr5⟩, ih6 hr6⟩, ih7 hr7⟩⟩
    · have hch' : (ONode.node v r st a k0 k1 k2 k3 k4 k5 k6 k7).hasChildren = false := by
        simpa using hch
      rw [binDecodeKid, if_neg hch]
      by_cases ho : isNodeOccupied cfg (ONode.node v r st a k0 k1 k2 k3 k4 k5 k6 k7) = true
      · rw [binChildPack_occupied cfg _ (fun hh => ONode.noConfusion hh) hch' ho]
        simp only [ONode.rough]
        rw [binMakeChild_occupied]
        simp only [binRT]
        rw [if_neg hch]
        simp only [Bool.and_eq_true]
        refine ⟨⟨rfl, ?_⟩, ?_⟩
        · rw [ho]
          simp [isNodeOccupied, ONode.value, ge_iff_le, hoccMax]
        · rw [if_pos ho]
          cases r with
          | none => rfl
          | some x =>
            have hx : 0 ≤ x ∧ x ≤ 1 := by simpa using hrown
            obtain ⟨h1, h2, h3⟩ := binRough_decode_val cfg hB2 hBpow hnb x hx.1 hx.2
            show (decide (|x - ((bitsValLSB (natBitsLSB (numRoughBits cfg)
                ((binRoughIdx cfg x % (2:ℤ) ^ 64).toNat)) : ℚ) * binsizeQ cfg)| <
                  binsizeQ cfg) &&
              (if x = (⌊x / binsizeQ cfg⌋ : ℚ) * binsizeQ cfg then
                 decide (((bitsValLSB (natBitsLSB (numRoughBits cfg)
                   ((binRoughIdx cfg x % (2:ℤ) ^ 64).toNat)) : ℚ) * binsizeQ cfg) = x)
               else true)) = true
            rw [h1]
            simp only [Bool.and_eq_true, decide_eq_true_eq]
            refine ⟨h2, ?_⟩
            by_cases hal : x = (⌊x / binsizeQ cfg⌋ : ℚ) * binsizeQ cfg
            · rw [if_pos hal]
              simp [h3 hal]
            · rw [if_neg hal]
      · have ho' : isNodeOccupied cfg (ONode.node v r st a k0 k1 k2 k3 k4 k5 k6 k7) = false := by
          simpa using ho
        rw [binChildPack_free cfg _ (fun hh => ONode.noConfusion hh) hch' ho',
          binMakeChild_free]
        simp only [binRT]
        rw [if_neg hch]
        simp only [Bool.and_eq_true]
        refine ⟨⟨rfl, ?_⟩, ?_⟩
        · rw [ho']
          simp [isNodeOccupied, ONode.value, ge_iff_le, hoccMin]
        · rw [if_neg (by simp [ho'])]

/-- The spec's BINNING round-trip agreement between a tree with
children and in-range roughness values, and its decode normal form. -/
theorem binRT_decode (cfg : TreeCfg)
    (hoccMax : cfg.occThres ≤ cfg.clampMax) (hoccMin : ¬ cfg.occThres ≤ cfg.clampMin)
    (hB2 : 2 ≤ cfg.numBinaryBins) (hBpow : cfg.numBinaryBins = 2 ^ numRoughBits cfg)
    (hnb : numRoughBits cfg ≤ 64) (n : ONode) (hch : n.hasChildren = true)
    (hr : roughInRange n = true) :
    binRT cfg n (binDecode cfg n) = true := by
  cases n with
  | null => exact absurd hch (by decide)
  | node v r st a k0 k1 k2 k3 k4 k5 k6 k7 =>
    simp only [roughInRange, Bool.and_eq_true] at hr
    obtain ⟨-, ⟨⟨⟨⟨⟨⟨⟨hr0, hr1⟩, hr2⟩, hr3⟩, hr4⟩, hr5⟩, hr6⟩, hr7⟩⟩ := hr
    rw [binDecode_node]
    simp only [binRT]
    rw [if_pos hch]
    simp only [Bool.and_eq_true]
    exact ⟨hasChildren_decodeMap _ (binDecodeKid_ne_null cfg) v _ r none st 0 a 0
        k0 k1 k2 k3 k4 k5 k6 k7 hch,
      ⟨⟨⟨⟨⟨⟨⟨binRT_kid cfg hoccMax hoccMin hB2 hBpow hnb k0 hr0,
      binRT_kid cfg hoccMax hoccMin hB2 hBpow hnb k1 hr1⟩,
      binRT_kid cfg hoccMax hoccMin hB2 hBpow hnb k2 hr2⟩,
      binRT_kid cfg hoccMax hoccMin hB2 hBpow hnb k3 hr3⟩,
      binRT_kid cfg hoccMax hoccMin hB2 hBpow hnb k4 hr4⟩,
      binRT_kid cfg hoccMax hoccMin hB2 hBpow hnb k5 hr5⟩,
      binRT_kid cfg hoccMax hoccMin hB2 hBpow hnb k6 hr6⟩,
      binRT_kid cfg hoccMax hoccMin hB2 hBpow hnb k7 hr7⟩⟩

/-- A THRESHOLDING child group is 3 bits long. -/
theorem threshChildBits_length (cfg : TreeCfg) (c : ONode) :
    (threshChildBits cfg c).length = 3 := rfl

/-- A childless subtree has at most one node. -/
theorem size_childless_le_one (c : ONode) (h : c.hasChildren = false) : c.size ≤ 1 := by
  cases c with
  | null => exact Nat.zero_le 1
  | node v r st a k0 k1 k2 k3 k4 k5 k6 k7 =>
    have hall := hasChildren_false_all_null _ h
    simp only [ONode.childrenList, List.mem_cons, List.not_mem_nil] at hall
    have h0 : k0 = .null := hall k0 (by tauto)
    have h1 : k1 = .null := hall k1 (by tauto)
    have h2 : k2 = .null := hall k2 (by tauto)
    have h3 : k3 = .null := hall k3 (by tauto)
    have h4 : k4 = .null := hall k4 (by tauto)
    have h5 : k5 = .null := hall k5 (by tauto)
    have h6 : k6 = .null := hall k6 (by tauto)
    have h7 : k7 = .null := hall k7 (by tauto)
    subst h0 h1 h2 h3 h4 h5 h6 h7
    simp [ONode.size]

/-- Per-child contribution bound for the THRESHOLDING stream. -/
theorem size_le_threshContrib (cfg : TreeCfg) (c : ONode)
    (IH : c.size ≤ (writeBinThresh cfg c).length + 1) :
    c.size ≤ (if c.hasChildren then writeBinThresh cfg c else []).length + 3 := by
  by_cases h : c.hasChildren = true
  · rw [if_pos h]; omega
  · rw [if_neg h]
    have := size_childless_le_one c (by simpa using h)
    simp only [List.length_nil]
    omega

/-- The THRESHOLDING stream of a subtree is long enough that the
stream-length-based reader fuel covers the node count. -/
theorem size_le_writeThresh (cfg : TreeCfg) :
    ∀ n : ONode, n.size ≤ (writeBinThresh cfg n).length + 1 := by
  intro n
  induction n with
  | null => simp [writeBinThresh, ONode.size]
  | node v r st a k0 k1 k2 k3 k4 k5 k6 k7 ih0 ih1 ih2 ih3 ih4 ih5 ih6 ih7 =>
    have h0 := size_le_threshContrib cfg k0 ih0
    have h1 := size_le_threshContrib cfg k1 ih1
    have h2 := size_le_threshContrib cfg k2 ih2
    have h3 := size_le_threshContrib cfg k3 ih3
    have h4 := size_le_threshContrib cfg k4 ih4
    have h5 := size_le_threshContrib cfg k5 ih5
    have h6 := size_le_threshContrib cfg k6 ih6
    have h7 := size_le_threshContrib cfg k7 ih7
    simp only [writeBinThresh, ONode.size, List.length_append, threshChildBits_length]
    omega

/-- Per-child contribution bound for the BINNING stream. -/
theorem size_le_binContrib (cfg : TreeCfg) (c : ONode)
    (IH : c.size ≤ (writeBinBinning cfg c).length + 1) :
    c.size ≤ (if c.hasChildren then writeBinBinning cfg c else []).length
      + (numRoughBits cfg + 3) := by
  by_cases h : c.hasChildren = true
  · rw [if_pos h]; omega
  · rw [if_neg h]
    have := size_childless_le_one c (by simpa using h)
    simp only [List.length_nil]
    omega

/-- The BINNING stream of a subtree is long enough that the
stream-length-based reader fuel covers the node count. -/
theorem size_le_writeBinning (cfg : TreeCfg) :
    ∀ n : ONode, n.size ≤ (writeBinBinning cfg n).length + 1 := by
  intro n
  induction n with
  | null => simp [writeBinBinning, ONode.size]
  | node v r st a k0 k1 k2 k3 k4 k5 k6 k7 ih0 ih1 ih2 ih3 ih4 ih5 ih6 ih7 =>
    have h0 := size_le_binContrib cfg k0 ih0
    have h1 := size_le_binContrib cfg k1 ih1
    have h2 := size_le_binContrib cfg k2 ih2
    have h3 := size_le_binContrib cfg k3 ih3
    have h4 := size_le_binContrib cfg k4 ih4
    have h5 := size_le_binContrib cfg k5 ih5
    have h6 := size_le_binContrib cfg k6 ih6
    have h7 := size_le_binContrib cfg k7 ih7
    simp only [writeBinBinning, ONode.size, List.length_append, binChildBits_length]
    omega

/-- `readBinaryData` undoes `writeBinaryData` into an empty tree, in
THRESHOLDING mode, producing the decode normal form. -/
theorem readBinaryData_writeThresh (cfg : TreeCfg) (hm : cfg.mode = .thresholding)
    (hmin200 : ¬ |cfg.clampMin + 200| < 1 / 1000)
    (hmax200 : ¬ |cfg.clampMax + 200| < 1 / 1000)
    (root : ONode) (hch : root.hasChildren = true) (ck ck2 : KeyBoolMap) :
    readBinaryData cfg ⟨.null, ck⟩ (writeBinaryData cfg ⟨root, ck2⟩)
      = some (⟨threshDecode cfg root, ck⟩, []) := by
  cases root with
  | null => exact absurd hch (by decide)
  | node v r st a k0 k1 k2 k3 k4 k5 k6 k7 =>
    have hw : writeBinaryData cfg ⟨ONode.node v r st a k0 k1 k2 k3 k4 k5 k6 k7, ck2⟩
        = writeBinThresh cfg (ONode.node v r st a k0 k1 k2 k3 k4 k5 k6 k7) := by
      show writeBinaryNode cfg _ = _
      rw [writeBinaryNode, hm]
    rw [hw]
    show (readBinaryNode cfg
        ((writeBinThresh cfg (ONode.node v r st a k0 k1 k2 k3 k4 k5 k6 k7)).length + 1)
        ONode.default
        (writeBinThresh cfg (ONode.node v r st a k0 k1 k2 k3 k4 k5 k6 k7))).map
      (fun p => ((⟨p.1, ck⟩ : TreeState), p.2)) = _
    rw [readBinaryNode, hm]
    have hnf := thresh_roundtrip_nf cfg hmin200 hmax200
      (ONode.node v r st a k0 k1 k2 k3 k4 k5 k6 k7)
      ((writeBinThresh cfg (ONode.node v r st a k0 k1 k2 k3 k4 k5 k6 k7)).length + 1) 0 []
      (fun hh => ONode.noConfusion hh)
      (by
        have := size_le_writeThresh cfg (ONode.node v r st a k0 k1 k2 k3 k4 k5 k6 k7)
        omega)
    rw [List.append_nil] at hnf
    rw [show ONode.default
      = ONode.node 0 none 0 0 .null .null .null .null .null .null .null .null from rfl]
    rw [hnf]
    rfl

/-- `readBinaryData` undoes `writeBinaryData` into an empty tree, in
BINNING mode, producing the decode normal form. -/
theorem readBinaryData_writeBinning (cfg : TreeCfg) (hm : cfg.mode = .binning)
    (hmin200 : ¬ |cfg.clampMin + 200| < 1 / 1000)
    (hmax200 : ¬ |cfg.clampMax + 200| < 1 / 1000)
    (root : ONode) (hch : root.hasChildren = true) (ck ck2 : KeyBoolMap) :
    readBinaryData cfg ⟨.null, ck⟩ (writeBinaryData cfg ⟨root, ck2⟩)
      = some (⟨binDecode cfg root, ck⟩, []) := by
  cases root with
  | null => exact absurd hch (by decide)
  | node v r st a k0 k1 k2 k3 k4 k5 k6 k7 =>
    have hw : writeBinaryData cfg ⟨ONode.node v r st a k0 k1 k2 k3 k4 k5 k6 k7, ck2⟩
        = writeBinBinning cfg (ONode.node v r st a k0 k1 k2 k3 k4 k5 k6 k7) := by
      show writeBinaryNode cfg _ = _
      rw [writeBinaryNode, hm]
    rw [hw]
    show (readBinaryNode cfg
        ((writeBinBinning cfg (ONode.node v r st a k0 k1 k2 k3 k4 k5 k6 k7)).length + 1)
        ONode.default
        (writeBinBinning cfg (ONode.node v r st a k0 k1 k2 k3 k4 k5 k6 k7))).map
      (fun p => ((⟨p.1, ck⟩ : TreeState), p.2)) = _
    rw [readBinaryNode, hm]
    have hnf := bin_roundtrip_nf cfg hmin200 hmax200
      (ONode.node v r st a k0 k1 k2 k3 k4 k5 k6 k7)
      ((writeBinBinning cfg (ONode.node v r st a k0 k1 k2 k3 k4 k5 k6 k7)).length + 1) 0 []
      (fun hh => ONode.noConfusion hh)
      (by
        have := size_le_writeBinning cfg (ONode.node v r st a k0 k1 k2 k3 k4 k5 k6 k7)
        omega)
    rw [List.append_nil] at hnf
    rw [show ONode.default
      = ONode.node 0 none 0 0 .null .null .null .null .null .null .null .null from rfl]
    rw [hnf]
    rfl

/-- **C1** (counterexample).  The round trip does not preserve the
root's occupancy class: a tree whose single node is a free leaf
(log-odds at `clampMin = -2`) decodes to an occupied root at
`clampMax = 7/2` — the reader unconditionally defaults the node it
reads into to occupied and never restores the root's own class. -/
theorem C1_roundtrip_counterexample :
    isNodeOccupied (cfgStd 1 false .thresholding) freeRootTree.root = false ∧
    readBinaryData (cfgStd 1 false .thresholding) ⟨.null, []⟩
        (writeBinaryData (cfgStd 1 false .thresholding) freeRootTree)
      = some (⟨oLeaf (7/2) none 0, []⟩, []) ∧
    isNodeOccupied (cfgStd 1 false .thresholding) (oLeaf (7/2) none 0) = true := by
  refine ⟨by decide, by decide, by decide⟩

/-- **C1** (corrected).  Serialize-then-deserialize into an empty tree
consumes the stream exactly and yields the decode normal form, which
agrees with the original tree on branching structure and on every
non-root node's occupancy class — but not on the root's own class
(the reader defaults the root to occupied; see the counterexample) —
and the roughness behaviour differs by mode from the claim:
THRESHOLDING recovers only the recorded one-bit binarization
(threshold or zero, not "within one bin"), while BINNING recovers an
occupied leaf's set roughness within one bin size and exactly when the
original value is bin-aligned, given at least two bins, a power-of-two
bin count of at most `2^64`, and roughness values in `[0, 1]`. -/
theorem C1_roundtrip_amended (cfg : TreeCfg) (t : TreeState)
    (hmin200 : ¬ |cfg.clampMin + 200| < 1 / 1000)
    (hmax200 : ¬ |cfg.clampMax + 200| < 1 / 1000)
    (hoccMax : cfg.occThres ≤ cfg.clampMax) (hoccMin : ¬ cfg.occThres ≤ cfg.clampMin)
    (hch : t.root.hasChildren = true) :
    (cfg.mode = .thresholding →
      readBinaryData cfg ⟨.null, t.ck⟩ (writeBinaryData cfg t)
        = some (⟨threshDecode cfg t.root, t.ck⟩, []) ∧
      threshRT cfg t.root (threshDecode cfg t.root) = true) ∧
    (cfg.mode = .binning →
      readBinaryData cfg ⟨.null, t.ck⟩ (writeBinaryData cfg t)
        = some (⟨binDecode cfg t.root, t.ck⟩, []) ∧
      (2 ≤ cfg.numBinaryBins → cfg.numBinaryBins = 2 ^ numRoughBits cfg →
       numRoughBits cfg ≤ 64 → roughInRange t.root = true →
       binRT cfg t.root (binDecode cfg t.root) = true)) := by
  obtain ⟨root, ck⟩ := t
  exact ⟨fun hm => ⟨readBinaryData_writeThresh cfg hm hmin200 hmax200 root hch ck ck,
      threshRT_decode cfg hoccMax hoccMin root hch⟩,
    fun hm => ⟨readBinaryData_writeBinning cfg hm hmin200 hmax200 root hch ck ck,
      fun hB2 hBpow hnb hr => binRT_decode cfg hoccMax hoccMin hB2 hBpow hnb root hch hr⟩⟩

/-- Witness for C1's amended round trip: the depth-2 tree under the
representative configuration, in both encoding modes, with every
hypothesis discharged by evaluation. -/
theorem C1_roundtrip_witness :
    (readBinaryData (cfgStd 2 false .thresholding) ⟨.null, []⟩
        (writeBinaryData (cfgStd 2 false .thresholding) ⟨depth2Tree, []⟩)
      = some (⟨threshDecode (cfgStd 2 false .thresholding) depth2Tree, []⟩, []) ∧
     threshRT (cfgStd 2 false .thresholding) depth2Tree
        (threshDecode (cfgStd 2 false .thresholding) depth2Tree) = true) ∧
    (readBinaryData (cfgStd 2 false .binning) ⟨.null, []⟩
        (writeBinaryData (cfgStd 2 false .binning) ⟨depth2Tree, []⟩)
      = some (⟨binDecode (cfgStd 2 false .binning) depth2Tree, []⟩, []) ∧
     binRT (cfgStd 2 false .binning) depth2Tree
        (binDecode (cfgStd 2 false .binning) depth2Tree) = true) := by
  constructor
  · exact (C1_roundtrip_amended (cfgStd 2 false .thresholding) ⟨depth2Tree, []⟩
      (by decide) (by decide) (by decide) (by decide) (by decide)).1 rfl
  · have h := (C1_roundtrip_amended (cfgStd 2 false .binning) ⟨depth2Tree, []⟩
      (by decide) (by decide) (by decide) (by decide) (by decide)).2 rfl
    exact ⟨h.1, h.2 (by decide) (by decide) (by decide) (by decide)⟩

end ClaimTheorems

end RoughOctomap
